import Mathlib

/-!
Verification of the UCO pre-0.7.0 validator preconditioner (src/precondition.py).

Python strings are modelled as `List Char`; Python exceptions as `Except PErr`
or `Option`; `re` operations are modelled by deterministic scanners that are
faithful to the regular expressions actually used by the code (all of which
are backtracking-free in the relevant sense, as argued in the comments).
-/

/-- Python strings are modelled as lists of characters. -/
abbrev Str := List Char

deriving instance DecidableEq for Except

/-- Exceptions raised by the Python module. -/
inductive PErr where
  /-- `int()` raised `ValueError` on a malformed suffix. -/
  | valueError
  /-- `Exception('Could not find unused prefix sequence!')` -/
  | couldNotFindUnusedSequence
  /-- `Exception('This cannot happen')` -/
  | thisCannotHappen
  /-- `Exception('Found multiple tokens that look like empty-string contexts')` -/
  | multipleEmptyStringContexts
  deriving DecidableEq

/-- `\w` in the code's regexes; the source itself documents `[\w]` as
`[A-Za-z0-9_]` (comment on the `":([\w-]+)"` pattern). -/
def isWordChar (c : Char) : Bool := c.isAlpha || c.isDigit || c == '_'

/-- `\s`, Python's whitespace class (the characters relevant to this code). -/
def isPySpace (c : Char) : Bool := c == ' ' || c == '\t' || c == '\n' || c == '\r'

/-- The literal separator `_LINE_` used by the line-number codec. -/
def lineSep : Str := ['_', 'L', 'I', 'N', 'E', '_']

/-- One step of Python `str.split(sep)` scanning: at each position, if `sep`
is a prefix of the rest, cut there (skipping over `sep`), else move one
character right.  `fuel` only drives termination; `pySplit` supplies
`text.length`, which is always enough. -/
def splitAuxF (sep : Str) : Nat → Str → Str → List Str
  | 0, text, acc => [acc.reverse ++ text]
  | fuel + 1, text, acc =>
    match text with
    | [] => [acc.reverse]
    | c :: rest =>
      if sep.isPrefixOf (c :: rest) then
        acc.reverse :: splitAuxF sep fuel (rest.drop (sep.length - 1)) []
      else
        splitAuxF sep fuel rest (c :: acc)

/-- Python `text.split(sep)` for a nonempty separator: leftmost,
non-overlapping occurrences. -/
def pySplit (sep text : Str) : List Str := splitAuxF sep text.length text []

/-- Python `text.rsplit(sep)` (no maxsplit): like `split` but occurrences are
selected greedily from the right.  Scanning right-to-left over `text` is the
same as scanning left-to-right over the reversed text with the reversed
separator, then undoing the reversal of every piece and of the piece order. -/
def pyRsplit (sep text : Str) : List Str :=
  ((pySplit sep.reverse text.reverse).map List.reverse).reverse

/-- Decimal value of a digit character. -/
def charVal (c : Char) : Nat := c.toNat - 48

/-- Tail of Python `int()`'s base-10 digit part: digits with single
underscores allowed between digits. Accumulates the value. -/
def digitsCore : Str → Nat → Option Nat
  | [], acc => some acc
  | c :: rest, acc =>
    if c.isDigit then digitsCore rest (acc * 10 + charVal c)
    else if c == '_' then
      match rest with
      | d :: rest2 => if d.isDigit then digitsCore rest2 (acc * 10 + charVal d) else none
      | [] => none
    else none

/-- Python `int()`'s digit part: nonempty, must start with a digit. -/
def parsePyNat : Str → Option Nat
  | [] => none
  | c :: rest => if c.isDigit then digitsCore rest (charVal c) else none

/-- Python `str.strip()` (as applied by `int()` to its argument). -/
def pyStrip (s : Str) : Str :=
  ((s.dropWhile Char.isWhitespace).reverse.dropWhile Char.isWhitespace).reverse

/-- Model of Python `int(s)` (base 10): optional surrounding whitespace,
optional sign, then a digit part; `none` models `ValueError`. -/
def pyInt? (s : Str) : Option Int :=
  match pyStrip s with
  | [] => none
  | c :: rest =>
    if c == '+' then (parsePyNat rest).map Int.ofNat
    else if c == '-' then (parsePyNat rest).map (fun m => -(Int.ofNat m))
    else (parsePyNat (c :: rest)).map Int.ofNat

/-- `extract_line_number(text)`:
```
parts = text.rsplit('_LINE_')
if len(parts) == 1:
    return text, None
else:
    return parts[0], int(parts[1])
```
`.error .valueError` models the `ValueError` escaping from `int`. -/
def extract_line_number (text : Str) : Except PErr (Str × Option Int) :=
  let parts := pyRsplit lineSep text
  if parts.length = 1 then .ok (text, none)
  else
    match parts with
    | p0 :: p1 :: _ =>
      match pyInt? p1 with
      | some n => .ok (p0, some n)
      | none => .error .valueError
    | _ => .error .valueError

/-- Decimal digit to character. -/
def digitChar : Nat → Char
  | 0 => '0' | 1 => '1' | 2 => '2' | 3 => '3' | 4 => '4'
  | 5 => '5' | 6 => '6' | 7 => '7' | 8 => '8' | _ => '9'

/-- Fueled decimal rendering; `natToStr` supplies enough fuel. -/
def toDec : Nat → Nat → Str → Str
  | 0, _, acc => acc
  | fuel + 1, n, acc =>
    if n < 10 then digitChar n :: acc
    else toDec fuel (n / 10) (digitChar (n % 10) :: acc)

/-- Model of Python `str(n)` for a natural number `n`. -/
def natToStr (n : Nat) : Str := toDec (n + 1) n []

/-- Head test for the fixed-length token regex `(\w{L}):` at one position. -/
def wMatchAt (L : Nat) (s : Str) : Bool :=
  (s.take L).length == L && (s.take L).all isWordChar &&
    (match s.drop L with
     | c :: _ => c == ':'
     | [] => false)

/-- Fueled scan modelling `re.findall(r'(\w{L}):', text)`: leftmost,
non-overlapping matches, returning the group (the token before the colon). -/
def findPrefixesF (L : Nat) : Nat → Str → List Str
  | 0, _ => []
  | fuel + 1, s =>
    match s with
    | [] => []
    | c :: rest =>
      if wMatchAt L (c :: rest) then
        (c :: rest).take L :: findPrefixesF L fuel (rest.drop L)
      else
        findPrefixesF L fuel rest

/-- `re.findall(r'(\w{L}):', text)`. -/
def findPrefixes (L : Nat) (s : Str) : List Str := findPrefixesF L s.length s

/-- Little-endian base-`N` digits of `count`, as computed by the `while count:`
loop of `PrefixGenerator.__iter__` (fueled; `count` itself is enough fuel for
every count the generator actually visits). -/
def baseDigits (N : Nat) : Nat → Nat → List Nat
  | 0, _ => []
  | fuel + 1, count =>
    if count = 0 then [] else count % N :: baseDigits N fuel (count / N)

/-- The string yielded by `PrefixGenerator` for a given `count`: `[0]*L` with
the base-`N` digits of `count` written into its low-order (rightmost)
positions, each digit then mapped through the alphabet. -/
def genPfx (alphabet : Str) (L count : Nat) : Str :=
  let ds := baseDigits alphabet.length count count
  (List.replicate (L - ds.length) 0 ++ ds.reverse).map (fun d => alphabet.getD d ' ')

/-- `autogenerate_empty_prefix(text, prefix_length, alphabet)`:
collect the `(\w{L}):` tokens into a set, raise the exhaustion error when the
set's size equals `len(alphabet)`, otherwise return the first generated
candidate not in the set (raising `This cannot happen` if none is found). -/
def autogenerate_empty_pfx (text : Str) (L : Nat) (alphabet : Str) : Except PErr Str :=
  let non_candidates := (findPrefixes L text).dedup
  if non_candidates.length = alphabet.length then
    .error .couldNotFindUnusedSequence
  else
    match ((List.range (alphabet.length ^ L)).map (genPfx alphabet L)).find?
        (fun p => !non_candidates.contains p) with
    | some p => .ok p
    | none => .error .thisCannotHappen

/-- The scheme alternatives of the `"":(\s*"(?:http|https|file)://)` pattern,
each together with the `://` the pattern requires after it.  The regex
alternation is equivalent to testing these three prefixes (trying `http` then
backtracking to `https` gives exactly the `https://` case). -/
def schemeAt (s : Str) : Option Str :=
  if (['h','t','t','p',':','/','/'] : Str).isPrefixOf s then some ['h','t','t','p',':','/','/']
  else if (['h','t','t','p','s',':','/','/'] : Str).isPrefixOf s then
    some ['h','t','t','p','s',':','/','/']
  else if (['f','i','l','e',':','/','/'] : Str).isPrefixOf s then some ['f','i','l','e',':','/','/']
  else none

/-- Match of the empty-prefix declaration pattern `"":(\s*"(?:http|https|file)://)`
at the start of `s`.  Returns `(group 1, rest after the whole match)`. -/
def matchDecl (s : Str) : Option (Str × Str) :=
  if (['"','"',':'] : Str).isPrefixOf s then
    let r := s.drop 3
    let sp := r.takeWhile isPySpace
    let r2 := r.dropWhile isPySpace
    match r2 with
    | c :: r3 =>
      if c == '"' then
        match schemeAt r3 with
        | some sch => some (sp ++ '"' :: sch, r3.drop sch.length)
        | none => none
      else none
    | [] => none
  else none

/-- Fueled scan modelling `re.subn` with the declaration pattern and the
replacement `'"{prefix}":{group1}'`: returns the rewritten text and the number
of replacements. -/
def subnDecl (pfx : Str) : Nat → Str → (Str × Nat)
  | 0, s => (s, 0)
  | fuel + 1, s =>
    match s with
    | [] => ([], 0)
    | c :: rest =>
      match matchDecl (c :: rest) with
      | some (g1, after) =>
        let r := subnDecl pfx fuel after
        ('"' :: pfx ++ '"' :: ':' :: g1 ++ r.1, r.2 + 1)
      | none =>
        let r := subnDecl pfx fuel rest
        (c :: r.1, r.2)

/-- Match of the empty-prefixed token pattern `":([\w-]+)"` at the start of
`s`: returns `(group 1, rest after the whole match)`. -/
def matchTok (s : Str) : Option (Str × Str) :=
  match s with
  | c1 :: c2 :: r =>
    if c1 == '"' && c2 == ':' then
      let g := r.takeWhile (fun c => isWordChar c || c == '-')
      let r2 := r.dropWhile (fun c => isWordChar c || c == '-')
      if g.isEmpty then none
      else
        match r2 with
        | c :: rest => if c == '"' then some (g, rest) else none
        | [] => none
    else none
  | _ => none

/-- Fueled scan modelling `re.subn` with the token pattern and the replacement
`'"{prefix}:{group1}"'` (the count is discarded by the code). -/
def subnTokF (pfx : Str) : Nat → Str → Str
  | 0, s => s
  | fuel + 1, s =>
    match s with
    | [] => []
    | c :: rest =>
      match matchTok (c :: rest) with
      | some (g, after) => '"' :: pfx ++ ':' :: g ++ '"' :: subnTokF pfx fuel after
      | none => c :: subnTokF pfx fuel rest

/-- `replace_empty_prefix(text, empty_prefix)`: substitute the declaration
pattern; zero matches returns the text unchanged, more than one raises, one
match continues with the empty-prefixed-token substitution. -/
def replace_empty_pfx (text pfx : Str) : Except PErr Str :=
  let r := subnDecl pfx text.length text
  if r.2 = 0 then .ok r.1
  else if r.2 > 1 then .error .multipleEmptyStringContexts
  else .ok (subnTokF pfx r.1.length r.1)

/-- The literal `"@type":` part of the type-matcher pattern
`( *"@type": *")([\w:#/ and hyphen]+)(",)`. -/
def litAtType : Str := ['"', '@', 't', 'y', 'p', 'e', '"', ':']

/-- The character class of the `@type` pattern: `\w`, colon, hash, slash,
hyphen. -/
def typeClass (c : Char) : Bool := isWordChar c || c == ':' || c == '#' || c == '/' || c == '-'

/-- `type_matcher.match(line)`: anchored at the start of the line, trailing
text after the match allowed.  Returns `(group 1, group 2)` on success; group
3 is always `",`.  The scan is equivalent to the regex because every greedy
piece (`' *'`, the class run) is followed by a literal character excluded from
it, so no backtracking can succeed where the maximal run fails. -/
def embedMatch (line : Str) : Option (Str × Str) :=
  let s1 := line.takeWhile (fun c => c == ' ')
  let r1 := line.dropWhile (fun c => c == ' ')
  if litAtType.isPrefixOf r1 then
    let r2 := r1.drop litAtType.length
    let s2 := r2.takeWhile (fun c => c == ' ')
    let r3 := r2.dropWhile (fun c => c == ' ')
    match r3 with
    | c :: r4 =>
      if c == '"' then
        let v := r4.takeWhile typeClass
        let r5 := r4.dropWhile typeClass
        if v.isEmpty then none
        else
          match r5 with
          | c1 :: c2 :: _ =>
            if c1 == '"' && c2 == ',' then some (s1 ++ litAtType ++ s2 ++ ['"'], v) else none
          | _ => none
      else none
    | [] => none
  else none

/-- Per-line body of the `embed_line_numbers` loop: a matching line is
replaced by `'{}{}_LINE_{}{}'.format(g1, g2, line_number, g3)` (everything
after the matched part of the line is dropped); other lines are unchanged. -/
def embedLine (lineNumber : Nat) (line : Str) : Str :=
  match embedMatch line with
  | some (g1, g2) => g1 ++ g2 ++ lineSep ++ natToStr lineNumber ++ ['"', ',']
  | none => line

/-- `text.split('\n')`. -/
def splitNl (text : Str) : List Str := pySplit ['\n'] text

/-- `'\n'.join(lines)`. -/
def joinNl : List Str → Str
  | [] => []
  | [l] => l
  | l :: l2 :: ls => l ++ '\n' :: joinNl (l2 :: ls)

/-- `enumerate`-style indexed map over the list of lines. -/
def mapWithIndex (f : Nat → Str → Str) : Nat → List Str → List Str
  | _, [] => []
  | i, l :: ls => f i l :: mapWithIndex f (i + 1) ls

/-- `embed_line_numbers(text)`: split into lines, rewrite each `@type` line
with its 1-based line number, and rejoin. -/
def embed_line_numbers (text : Str) : Str :=
  joinNl (mapWithIndex (fun i line => embedLine (i + 1) line) 0 (splitNl text))

/-- `DEFAULT_PREFIX_LENGTH`. -/
def defaultPfxLength : Nat := 3

/-- `DEFAULT_ALPHABET` (`string.ascii_lowercase`). -/
def defaultAlphabet : Str :=
  ['a','b','c','d','e','f','g','h','i','j','k','l','m',
   'n','o','p','q','r','s','t','u','v','w','x','y','z']

/-- `precondition(text, prefix)`: autogenerate the placeholder when none is
given, replace the empty prefix, then embed line numbers. -/
def precondition (text : Str) (pfx : Option Str) : Except PErr Str :=
  match pfx with
  | some p =>
    match replace_empty_pfx text p with
    | .error e => .error e
    | .ok t1 => .ok (embed_line_numbers t1)
  | none =>
    match autogenerate_empty_pfx text defaultPfxLength defaultAlphabet with
    | .error e => .error e
    | .ok p =>
      match replace_empty_pfx text p with
      | .error e => .error e
      | .ok t1 => .ok (embed_line_numbers t1)

/-- An rdflib term: `URIRef`, `Literal` (value and optional datatype string),
or `BNode`. -/
inductive Node where
  | uriref (iri : Str)
  | literal (value : Str) (datatype : Option Str)
  | bnode (id : Str)
  deriving DecidableEq

/-- A graph triple; the graph itself is the list of triples in the order the
code's `for` loop visits them. -/
abbrev Triple := Node × Node × Node

/-- The parsed `@context`, a Python dict from prefix string to expansion. -/
abbrev Ctx := Str → Option Str

/-- The `line_numbers` dict being built, keyed by subject. -/
abbrev Tbl := Node → Option Int

/-- Python truthiness of `obj.datatype` (`None` and the empty string are
falsy). -/
def datatypeTruthy : Option Str → Bool
  | none => false
  | some d => !d.isEmpty

/-- `line_numbers[subject] = number`. -/
def updTbl (tbl : Tbl) (subj : Node) (n : Int) : Tbl :=
  fun x => if x = subj then some n else tbl x

/-- Python `value.split(':', 1)`: the part before the first colon, and
`some` of the part after it when a colon exists. -/
def splitFirstColon : Str → (Str × Option Str)
  | [] => ([], none)
  | c :: rest =>
    if c = ':' then ([], some rest)
    else
      let r := splitFirstColon rest
      (c :: r.1, r.2)

/-- First `if` block of the `postcondition` loop: a literal with a truthy
datatype gets the line number stripped from the datatype; if a (truthy)
number was embedded, the object is rebuilt and the table updated. -/
def postStep1 (subj obj : Node) (tbl : Tbl) : Except PErr (Node × Tbl) :=
  match obj with
  | Node.literal v dt =>
    if datatypeTruthy dt then
      match extract_line_number (dt.getD []) with
      | .error e => .error e
      | .ok (stripped, number) =>
        match number with
        | some n =>
          if n ≠ 0 then .ok (Node.literal v (some stripped), updTbl tbl subj n)
          else .ok (Node.literal v dt, tbl)
        | none => .ok (Node.literal v dt, tbl)
    else .ok (Node.literal v dt, tbl)
  | o => .ok (o, tbl)

/-- Second `if` block: a literal with a falsy datatype whose value looks like
`prefix:stuff` with the prefix in the context is promoted to a `URIRef`. -/
def postStep2 (context : Ctx) (obj : Node) : Node :=
  match obj with
  | Node.literal v dt =>
    if datatypeTruthy dt then Node.literal v dt
    else
      match splitFirstColon v with
      | (p0, some p1) =>
        match context p0 with
        | some exp => Node.uriref (exp ++ p1)
        | none => Node.literal v dt
      | (_, none) => Node.literal v dt
  | o => o

/-- Third `if` block: a `URIRef` object (possibly just created) gets any
embedded (truthy) line number stripped, updating the table. -/
def postStep3 (subj obj : Node) (tbl : Tbl) : Except PErr (Node × Tbl) :=
  match obj with
  | Node.uriref u =>
    match extract_line_number u with
    | .error e => .error e
    | .ok (stripped, number) =>
      match number with
      | some n =>
        if n ≠ 0 then .ok (Node.uriref stripped, updTbl tbl subj n)
        else .ok (Node.uriref u, tbl)
      | none => .ok (Node.uriref u, tbl)
  | o => .ok (o, tbl)

/-- The whole loop body for one triple: the three blocks in sequence,
producing the object added to `new_graph` and the updated table. -/
def postTriple (context : Ctx) (subj obj : Node) (tbl : Tbl) : Except PErr (Node × Tbl) :=
  match postStep1 subj obj tbl with
  | .error e => .error e
  | .ok (o1, tbl1) => postStep3 subj (postStep2 context o1) tbl1

/-- The `postcondition` loop over the triples, threading the table and
collecting the new graph in visit order. -/
def postRun (context : Ctx) : List Triple → Tbl → Except PErr (List Triple × Tbl)
  | [], tbl => .ok ([], tbl)
  | (s, p, o) :: rest, tbl =>
    match postTriple context s o tbl with
    | .error e => .error e
    | .ok (o1, tbl1) =>
      match postRun context rest tbl1 with
      | .error e => .error e
      | .ok (g, tblF) => .ok ((s, p, o1) :: g, tblF)

/-- `postcondition(graph, context)`: returns `(new_graph, line_numbers)`. -/
def postcondition (graph : List Triple) (context : Ctx) : Except PErr (List Triple × Tbl) :=
  postRun context graph (fun _ => none)

/-- Claim-side declarative description of a line matched by the type-matcher
pattern: spaces, the literal `"@type":`, spaces, a quoted nonempty value over
the type character class, a closing quote-comma, and arbitrary remaining
text. -/
def TypeShape (line s1 s2 v rest : Str) : Prop :=
  line = s1 ++ litAtType ++ s2 ++ '"' :: (v ++ '"' :: ',' :: rest)
    ∧ (∀ c ∈ s1, c = ' ') ∧ (∀ c ∈ s2, c = ' ')
    ∧ v ≠ [] ∧ (∀ c ∈ v, typeClass c = true)

/-- Example line used by witnesses: `"@type": "P",`. -/
def exTypeLine : Str := ['"', '@', 't', 'y', 'p', 'e', '"', ':', ' ', '"', 'P', '"', ',']

/-- Example context used by witnesses and counterexamples: `{'f': 'u'}`. -/
def exCtxF : Ctx := fun s => if s = ['f'] then some ['u'] else none

/-! ### Lemmas about the split scanner -/

theorem splitAuxF_fuel_irrel (sep : Str) :
    ∀ f1 f2 text acc, text.length ≤ f1 → text.length ≤ f2 →
      splitAuxF sep f1 text acc = splitAuxF sep f2 text acc := by
  intro f1
  induction f1 with
  | zero =>
    intro f2 text acc h1 _
    have : text = [] := List.eq_nil_of_length_eq_zero (Nat.le_zero.mp h1)
    subst this
    cases f2 <;> simp [splitAuxF]
  | succ f1 ih =>
    intro f2 text acc h1 h2
    cases f2 with
    | zero =>
      have : text = [] := List.eq_nil_of_length_eq_zero (Nat.le_zero.mp h2)
      subst this
      simp [splitAuxF]
    | succ f2 =>
      cases text with
      | nil => simp [splitAuxF]
      | cons c rest =>
        simp only [splitAuxF]
        by_cases h : sep.isPrefixOf (c :: rest)
        · simp only [if_pos h]
          have hlen : (rest.drop (sep.length - 1)).length ≤ rest.length := by
            simp only [List.length_drop]; omega
          simp only [List.length_cons] at h1 h2
          rw [ih f2 (rest.drop (sep.length - 1)) [] (by omega) (by omega)]
        · simp only [if_neg h]
          simp only [List.length_cons] at h1 h2
          exact ih f2 rest (c :: acc) (by omega) (by omega)

theorem splitAuxF_no_match (sep : Str) :
    ∀ fuel text acc, (∀ i, ¬ sep.isPrefixOf (text.drop i)) →
      splitAuxF sep fuel text acc = [acc.reverse ++ text] := by
  intro fuel
  induction fuel with
  | zero => intro text acc _; simp [splitAuxF]
  | succ fuel ih =>
    intro text acc h
    cases text with
    | nil => simp [splitAuxF]
    | cons c rest =>
      have h0 : ¬ sep.isPrefixOf (c :: rest) := by simpa using h 0
      simp only [splitAuxF, if_neg h0]
      rw [ih rest (c :: acc) (fun i => by simpa using h (i + 1))]
      simp

theorem not_isPrefixOf_drop_of_no_occ {sep text : Str} (h : ¬ sep <:+: text) (i : Nat) :
    ¬ sep.isPrefixOf (text.drop i) := by
  intro hp
  exact h (((List.isPrefixOf_iff_prefix).mp hp).isInfix.trans (List.drop_suffix i text).isInfix)

theorem pySplit_of_no_occ (sep text : Str) (h : ¬ sep <:+: text) :
    pySplit sep text = [text] := by
  unfold pySplit
  rw [splitAuxF_no_match sep text.length text [] (not_isPrefixOf_drop_of_no_occ h)]
  simp

theorem splitAuxF_skip (s0 : Char) (stl : Str) :
    ∀ a fuel text acc, (a ++ text).length ≤ fuel → (∀ c ∈ a, ¬ c = s0) →
      splitAuxF (s0 :: stl) fuel (a ++ text) acc
        = splitAuxF (s0 :: stl) (fuel - a.length) text (a.reverse ++ acc) := by
  intro a
  induction a with
  | nil => intro fuel text acc _ _; simp
  | cons c a2 ih =>
    intro fuel text acc hlen ha
    cases fuel with
    | zero => simp only [List.length_append, List.length_cons] at hlen; omega
    | succ f =>
      have hc : ¬ c = s0 := ha c (by simp)
      have hpre : ¬ (s0 :: stl).isPrefixOf (c :: (a2 ++ text)) := by
        simp only [List.isPrefixOf, Bool.and_eq_true, beq_iff_eq]
        intro hcs
        exact absurd hcs.1.symm hc
      have e1 : f + 1 - (c :: a2).length = f - a2.length := by
        simp only [List.length_cons]; omega
      have e2 : (c :: a2).reverse ++ acc = a2.reverse ++ (c :: acc) := by simp
      rw [e1, e2]
      simp only [List.cons_append, splitAuxF, if_neg hpre]
      simp only [List.length_append, List.length_cons] at hlen
      exact ih f text (c :: acc) (by simp only [List.length_append]; omega)
        (fun x hx => ha x (by simp [hx]))

theorem splitAuxF_match (s0 : Char) (stl b acc : Str) (fuel : Nat) :
    splitAuxF (s0 :: stl) (fuel + 1) ((s0 :: stl) ++ b) acc
      = acc.reverse :: splitAuxF (s0 :: stl) fuel b [] := by
  have hpre : (s0 :: stl).isPrefixOf ((s0 :: stl) ++ b) :=
    (List.isPrefixOf_iff_prefix).mpr (List.prefix_append _ _)
  have heq : (s0 :: stl) ++ b = s0 :: (stl ++ b) := by simp
  rw [heq] at hpre
  simp only [List.cons_append, splitAuxF, if_pos hpre]
  congr 1
  have : (s0 :: stl).length - 1 = stl.length := by simp
  rw [this, List.drop_left]

theorem pySplit_boundary (s0 : Char) (stl a b : Str) (ha : ∀ c ∈ a, ¬ c = s0) :
    pySplit (s0 :: stl) (a ++ (s0 :: stl) ++ b) = a :: pySplit (s0 :: stl) b := by
  unfold pySplit
  rw [List.append_assoc]
  rw [splitAuxF_skip s0 stl a _ ((s0 :: stl) ++ b) [] (by simp) ha]
  have hf : (a ++ ((s0 :: stl) ++ b)).length - a.length = (stl.length + b.length) + 1 := by
    simp only [List.length_append, List.length_cons]; omega
  rw [hf, splitAuxF_match]
  simp only [List.reverse_reverse, List.append_nil]
  congr 1
  exact splitAuxF_fuel_irrel _ _ _ b [] (by omega) (le_refl _)

theorem lineSep_reverse : lineSep.reverse = '_' :: ['E', 'N', 'I', 'L', '_'] := by decide

theorem pyRsplit_no_sep (text : Str) (h : ¬ lineSep <:+: text) :
    pyRsplit lineSep text = [text] := by
  unfold pyRsplit
  rw [pySplit_of_no_occ _ _ (fun hi => h (List.reverse_infix.mp (by simpa using hi)))]
  simp

theorem pyRsplit_boundary (v d : Str) (hv : ¬ lineSep <:+: v) (hd : ∀ c ∈ d, ¬ c = '_') :
    pyRsplit lineSep (v ++ lineSep ++ d) = [v, d] := by
  unfold pyRsplit
  have hrev : (v ++ lineSep ++ d).reverse = d.reverse ++ lineSep.reverse ++ v.reverse := by
    simp
  rw [hrev, lineSep_reverse]
  rw [pySplit_boundary '_' ['E', 'N', 'I', 'L', '_'] d.reverse v.reverse
    (fun c hc => hd c (List.mem_reverse.mp hc))]
  rw [← lineSep_reverse,
    pySplit_of_no_occ _ _ (fun hi => hv (List.reverse_infix.mp hi))]
  simp

/-! ### Lemmas about the decimal codec -/

theorem toDec_acc : ∀ fuel n acc, n < fuel → toDec fuel n acc = toDec fuel n [] ++ acc := by
  intro fuel
  induction fuel with
  | zero => intro n acc h; omega
  | succ fuel ih =>
    intro n acc h
    by_cases h10 : n < 10
    · simp [toDec, if_pos h10]
    · have hd : n / 10 < fuel := by
        have := Nat.div_lt_self (by omega : 0 < n) (by omega : 1 < 10)
        omega
      simp only [toDec, if_neg h10]
      rw [ih (n / 10) (digitChar (n % 10) :: acc) hd, ih (n / 10) [digitChar (n % 10)] hd]
      simp

theorem toDec_fuel_irrel : ∀ f1 f2 n, n < f1 → n < f2 → toDec f1 n [] = toDec f2 n [] := by
  intro f1
  induction f1 with
  | zero => intro f2 n h; omega
  | succ f1 ih =>
    intro f2 n h1 h2
    cases f2 with
    | zero => omega
    | succ f2 =>
      by_cases h10 : n < 10
      · simp [toDec, if_pos h10]
      · have hd1 : n / 10 < f1 := by
          have := Nat.div_lt_self (by omega : 0 < n) (by omega : 1 < 10)
          omega
        have hd2 : n / 10 < f2 := by
          have := Nat.div_lt_self (by omega : 0 < n) (by omega : 1 < 10)
          omega
        simp only [toDec, if_neg h10]
        rw [toDec_acc f1 (n / 10) _ hd1, toDec_acc f2 (n / 10) _ hd2, ih f2 (n / 10) hd1 hd2]

theorem natToStr_lt_ten {n : Nat} (h : n < 10) : natToStr n = [digitChar n] := by
  simp [natToStr, toDec, if_pos h]

theorem natToStr_ge_ten {n : Nat} (h : 10 ≤ n) :
    natToStr n = natToStr (n / 10) ++ [digitChar (n % 10)] := by
  have hd : n / 10 < n := Nat.div_lt_self (by omega) (by omega)
  unfold natToStr
  conv_lhs => rw [toDec]
  rw [if_neg (by omega)]
  rw [toDec_acc n (n / 10) _ hd, toDec_fuel_irrel n (n / 10 + 1) (n / 10) hd (by omega)]

theorem digitChar_isDigit : ∀ d : Nat, (digitChar d).isDigit = true := by
  intro d
  unfold digitChar
  split <;> decide

theorem charVal_digitChar {d : Nat} (h : d < 10) : charVal (digitChar d) = d := by
  interval_cases d <;> decide

theorem natToStr_all_digits (n : Nat) : ∀ c ∈ natToStr n, c.isDigit = true := by
  induction n using Nat.strong_induction_on with
  | _ n ih =>
    by_cases h10 : n < 10
    · rw [natToStr_lt_ten h10]
      intro c hc
      simp at hc
      subst hc
      exact digitChar_isDigit n
    · rw [natToStr_ge_ten (by omega)]
      intro c hc
      rcases List.mem_append.mp hc with h | h
      · exact ih (n / 10) (Nat.div_lt_self (by omega) (by omega)) c h
      · simp at h
        subst h
        exact digitChar_isDigit (n % 10)

theorem natToStr_ne_nil (n : Nat) : natToStr n ≠ [] := by
  by_cases h10 : n < 10
  · rw [natToStr_lt_ten h10]; simp
  · rw [natToStr_ge_ten (by omega)]; simp

theorem foldl_natToStr (n : Nat) :
    ∀ acc, (natToStr n).foldl (fun a c => a * 10 + charVal c) acc
      = acc * 10 ^ (natToStr n).length + n := by
  induction n using Nat.strong_induction_on with
  | _ n ih =>
    intro acc
    by_cases h10 : n < 10
    · rw [natToStr_lt_ten h10]
      simp [List.foldl, charVal_digitChar h10]
    · rw [natToStr_ge_ten (by omega)]
      rw [List.foldl_append]
      rw [ih (n / 10) (Nat.div_lt_self (by omega) (by omega)) acc]
      simp only [List.foldl, List.length_append, List.length_cons, List.length_nil]
      rw [charVal_digitChar (Nat.mod_lt n (by omega))]
      rw [pow_succ]
      have := Nat.div_add_mod n 10
      ring_nf
      omega

theorem digitsCore_digits : ∀ s acc, (∀ c ∈ s, c.isDigit = true) →
    digitsCore s acc = some (s.foldl (fun a c => a * 10 + charVal c) acc) := by
  intro s
  induction s with
  | nil => intro acc _; simp [digitsCore]
  | cons c rest ih =>
    intro acc h
    have hc : c.isDigit = true := h c (by simp)
    have step : digitsCore (c :: rest) acc = digitsCore rest (acc * 10 + charVal c) := by
      rw [digitsCore.eq_def]
      simp only [if_pos hc]
    rw [step, List.foldl_cons]
    exact ih _ (fun x hx => h x (by simp [hx]))

theorem isDigit_ne {c x : Char} (h : c.isDigit = true) (hx : x.isDigit = false) : ¬ c = x := by
  intro he
  rw [he, hx] at h
  exact Bool.false_ne_true h

theorem isDigit_not_ws {c : Char} (h : c.isDigit = true) : c.isWhitespace = false := by
  have h1 : ¬ c = ' ' := isDigit_ne h (by decide)
  have h2 : ¬ c = '\t' := isDigit_ne h (by decide)
  have h3 : ¬ c = '\x0d' := isDigit_ne h (by decide)
  have h4 : ¬ c = '\n' := isDigit_ne h (by decide)
  simp [Char.isWhitespace, h1, h2, h3, h4]

theorem dropWhile_eq_self_of_none {p : Char → Bool} :
    ∀ s : Str, (∀ c ∈ s, p c = false) → s.dropWhile p = s := by
  intro s h
  cases s with
  | nil => rfl
  | cons c rest => simp [List.dropWhile, h c (by simp)]

theorem pyStrip_eq_self {s : Str} (h : ∀ c ∈ s, c.isWhitespace = false) : pyStrip s = s := by
  unfold pyStrip
  rw [dropWhile_eq_self_of_none s h,
    dropWhile_eq_self_of_none s.reverse (fun c hc => h c (List.mem_reverse.mp hc))]
  simp

theorem pyInt_natToStr (n : Nat) : pyInt? (natToStr n) = some (n : Int) := by
  unfold pyInt?
  rw [pyStrip_eq_self (fun c hc => isDigit_not_ws (natToStr_all_digits n c hc))]
  rcases hs : natToStr n with _ | ⟨c, rest⟩
  · exact absurd hs (natToStr_ne_nil n)
  · have hc : c.isDigit = true := natToStr_all_digits n c (by rw [hs]; simp)
    have hplus : (c == '+') = false := by
      simp only [beq_eq_false_iff_ne, ne_eq]
      exact isDigit_ne hc (by decide)
    have hminus : (c == '-') = false := by
      simp only [beq_eq_false_iff_ne, ne_eq]
      exact isDigit_ne hc (by decide)
    simp only [hplus, hminus, Bool.false_eq_true, if_false, parsePyNat, if_pos hc]
    rw [digitsCore_digits rest (charVal c) (fun x hx => natToStr_all_digits n x (by rw [hs]; simp [hx]))]
    have : rest.foldl (fun a c => a * 10 + charVal c) (charVal c)
        = (natToStr n).foldl (fun a c => a * 10 + charVal c) 0 := by
      rw [hs]; simp [List.foldl]
    rw [this, foldl_natToStr n 0]
    simp

/-! ### Claims C1 and C4: the line-number codec -/

/-- C4: for every natural number n and every string v not containing the
separator `_LINE_`, decoding the encoding is the identity:
`extract_line_number(v + '_LINE_' + str(n)) == (v, n)`. -/
theorem C4_decode_encode (v : Str) (n : Nat) (hv : ¬ lineSep <:+: v) :
    extract_line_number (v ++ lineSep ++ natToStr n) = .ok (v, some (n : Int)) := by
  unfold extract_line_number
  rw [pyRsplit_boundary v (natToStr n) hv
    (fun c hc => isDigit_ne (natToStr_all_digits n c hc) (by decide))]
  simp [pyInt_natToStr n]

theorem C4_decode_encode_witness :
    extract_line_number (['v'] ++ lineSep ++ natToStr 3) = .ok (['v'], some (3 : Int)) :=
  C4_decode_encode ['v'] 3 (by decide)

/-- C1: the claim states that `extract_line_number` splits on the LAST
occurrence of `_LINE_`, so on `a_LINE_1_LINE_2` it would return
`('a_LINE_1', 2)`.  The code instead calls `rsplit('_LINE_')` with no
maxsplit, which splits on EVERY occurrence and then reads `parts[0]` and
`parts[1]`, returning `('a', 1)` here.  This contradicts the function's own
docstring (strip a final `_LINE_n`), so the claim is right and the code has
a slip (`rsplit` is missing its `maxsplit=1` argument). -/
theorem C1_code_result :
    extract_line_number (['a'] ++ lineSep ++ ['1'] ++ lineSep ++ ['2'])
        = .ok (['a'], some (1 : Int))
      ∧ (['a'] : Str) ≠ ['a'] ++ lineSep ++ ['1'] ∧ (1 : Int) ≠ 2 := by
  refine ⟨by decide, by decide, by decide⟩

/-! ### Lemmas about the prefix allocator -/

theorem wMatchAt_of_shape (L : Nat) (p t : Str) (hL : p.length = L)
    (hw : ∀ c ∈ p, isWordChar c = true) :
    wMatchAt L (p ++ ':' :: t) = true := by
  unfold wMatchAt
  subst hL
  rw [List.take_left, List.drop_left]
  simp [List.all_eq_true]
  exact hw

theorem wMatchAt_drop_colon {L : Nat} {s : Str} (hm : wMatchAt L s = true) :
    ∃ z, s.drop L = ':' :: z := by
  unfold wMatchAt at hm
  simp only [Bool.and_eq_true] at hm
  rcases hd : s.drop L with _ | ⟨x, z⟩
  · rw [hd] at hm
    simp at hm
  · rw [hd] at hm
    have hx : x = ':' := by simpa using hm.2
    refine ⟨z, ?_⟩
    rw [hx]

theorem findPrefixesF_complete (L : Nat) (p : Str) (hw : ∀ c ∈ p, isWordChar c = true)
    (hL : p.length = L) :
    ∀ fuel text, text.length ≤ fuel → (p ++ [':']) <:+: text →
      p ∈ findPrefixesF L fuel text := by
  intro fuel
  induction fuel with
  | zero =>
    intro text hlen hinf
    have ht : text = [] := List.eq_nil_of_length_eq_zero (Nat.le_zero.mp hlen)
    subst ht
    have := List.infix_nil.mp hinf
    simp at this
  | succ fuel ih =>
    intro text hlen hinf
    cases text with
    | nil =>
      have := List.infix_nil.mp hinf
      simp at this
    | cons c rest =>
      simp only [List.length_cons] at hlen
      obtain ⟨s, t, hst⟩ := hinf
      have hst' : s ++ p ++ ':' :: t = c :: rest := by
        simpa [List.append_assoc] using hst
      by_cases hm : wMatchAt L (c :: rest) = true
      · have hunf : findPrefixesF L (fuel + 1) (c :: rest)
            = (c :: rest).take L :: findPrefixesF L fuel (rest.drop L) := by
          simp [findPrefixesF, hm]
        rw [hunf]
        cases s with
        | nil =>
          have hshape : c :: rest = p ++ ':' :: t := by simpa using hst'.symm
          have htake : (c :: rest).take L = p := by rw [hshape, ← hL, List.take_left]
          rw [htake]
          exact List.mem_cons_self p _
        | cons c0 s' =>
          have h2 : c0 :: (s' ++ p ++ ':' :: t) = c :: rest := by simpa using hst'
          injection h2 with hc0 hrest
          apply List.mem_cons_of_mem
          have hsL : L ≤ s'.length := by
            by_contra hlt
            push_neg at hlt
            obtain ⟨z, hdz⟩ := wMatchAt_drop_colon hm
            have hgetL : (c :: rest).get? L = some ':' := by
              have hgd := List.get?_drop (c :: rest) L 0
              rw [hdz] at hgd
              simpa using hgd.symm
            have hdec : c :: rest = (c :: s') ++ (p ++ ':' :: t) := by
              rw [← hrest]; simp [List.append_assoc]
            have hlen2 : (c :: s').length ≤ L := by
              simp only [List.length_cons]; omega
            have hjp : L - (c :: s').length < p.length := by
              simp only [List.length_cons]; omega
            have hcolon : p.get? (L - (c :: s').length) = some ':' := by
              rw [← List.get?_append hjp, ← List.get?_append_right hlen2, ← hdec]
              exact hgetL
            have : (':' : Char) ∈ p := List.get?_mem hcolon
            have := hw ':' this
            simp [isWordChar] at this
          have hdrop : rest.drop L = s'.drop L ++ (p ++ ':' :: t) := by
            rw [← hrest]
            rw [show s' ++ p ++ ':' :: t = s' ++ (p ++ ':' :: t) from by
              simp [List.append_assoc]]
            rw [List.drop_append_eq_append_drop]
            rw [show L - s'.length = 0 from by omega]
            simp
          refine ih (rest.drop L) ?_ ⟨s'.drop L, t, ?_⟩
          · simp only [List.length_drop]
            omega
          · rw [hdrop]
            simp [List.append_assoc]
      · have hunf : findPrefixesF L (fuel + 1) (c :: rest) = findPrefixesF L fuel rest := by
          simp [findPrefixesF, hm]
        rw [hunf]
        cases s with
        | nil =>
          exfalso
          have hshape : c :: rest = p ++ ':' :: t := by simpa using hst'.symm
          exact hm (by rw [hshape]; exact wMatchAt_of_shape L p t hL hw)
        | cons c0 s' =>
          have h2 : c0 :: (s' ++ p ++ ':' :: t) = c :: rest := by simpa using hst'
          injection h2 with hc0 hrest
          refine ih rest (by omega) ⟨s', t, ?_⟩
          rw [← hrest]
          simp [List.append_assoc]

theorem baseDigits_length : ∀ fuel count N k, count ≤ fuel → count < N ^ k →
    (baseDigits N fuel count).length ≤ k := by
  intro fuel
  induction fuel with
  | zero => intro count N k _ _; simp [baseDigits]
  | succ fuel ih =>
    intro count N k hf hk
    by_cases hc : count = 0
    · simp [baseDigits, hc]
    · have hN : 2 ≤ N := by
        rcases N with _ | _ | N
        · rcases k with _ | k
          · simp at hk; omega
          · simp [Nat.zero_pow] at hk
        · simp at hk; omega
        · omega
      rcases k with _ | k
      · simp at hk; omega
      · simp only [baseDigits, if_neg hc, List.length_cons]
        have h1 : count / N ≤ fuel := by
          have := Nat.div_lt_self (by omega : 0 < count) (by omega : 1 < N)
          omega
        have h2 : count / N < N ^ k := by
          rw [Nat.div_lt_iff_lt_mul (by omega : 0 < N)]
          calc count < N ^ (k + 1) := hk
          _ = N ^ k * N := by rw [pow_succ]
        have := ih (count / N) N k h1 h2
        omega

theorem baseDigits_all_lt : ∀ fuel count N k, count ≤ fuel → count < N ^ k →
    ∀ d ∈ baseDigits N fuel count, d < N := by
  intro fuel
  induction fuel with
  | zero => intro count N k _ _ d hd; simp [baseDigits] at hd
  | succ fuel ih =>
    intro count N k hf hk d hd
    by_cases hc : count = 0
    · simp [baseDigits, hc] at hd
    · have hN : 2 ≤ N := by
        rcases N with _ | _ | N
        · rcases k with _ | k
          · simp at hk; omega
          · simp [Nat.zero_pow] at hk
        · simp at hk; omega
        · omega
      rcases k with _ | k
      · simp at hk; omega
      · simp only [baseDigits, if_neg hc, List.mem_cons] at hd
        rcases hd with hd | hd
        · rw [hd]
          exact Nat.mod_lt count (by omega)
        · have h1 : count / N ≤ fuel := by
            have := Nat.div_lt_self (by omega : 0 < count) (by omega : 1 < N)
            omega
          have h2 : count / N < N ^ k := by
            rw [Nat.div_lt_iff_lt_mul (by omega : 0 < N)]
            calc count < N ^ (k + 1) := hk
            _ = N ^ k * N := by rw [pow_succ]
          exact ih (count / N) N k h1 h2 d hd

theorem genPfx_length (alphabet : Str) (L count : Nat) (h : count < alphabet.length ^ L) :
    (genPfx alphabet L count).length = L := by
  unfold genPfx
  have hlen := baseDigits_length count count alphabet.length L (le_refl _) h
  simp only [List.length_map, List.length_append, List.length_replicate, List.length_reverse]
  omega

theorem genPfx_mem (alphabet : Str) (L count : Nat) (h : count < alphabet.length ^ L) :
    ∀ c ∈ genPfx alphabet L count, c ∈ alphabet := by
  intro c hc
  unfold genPfx at hc
  simp only [List.mem_map] at hc
  obtain ⟨d, hd, hdc⟩ := hc
  have hdN : d < alphabet.length := by
    rcases List.mem_append.mp hd with h1 | h1
    · have hd0 : d = 0 := by
        have := List.eq_of_mem_replicate h1
        exact this
      subst hd0
      -- the replicate is nonempty only when L > (digits length) ≥ 0, and then
      -- the alphabet cannot be empty (else L > 0 forces count < 0^L = 0)
      rcases Nat.eq_zero_or_pos alphabet.length with hz | hp
      · exfalso
        rw [hz] at h
        rcases Nat.eq_zero_or_pos L with hL0 | hLp
        · subst hL0
          simp at h
          -- count < 1, so count = 0 and baseDigits = [], replicate (0 - 0) is empty
          subst h
          simp [baseDigits] at h1
        · rw [Nat.zero_pow (by omega)] at h
          omega
      · exact hp
    · exact baseDigits_all_lt count count alphabet.length L (le_refl _) h d
        (List.mem_reverse.mp h1)
  rw [← hdc]
  rw [List.getD_eq_get? alphabet d ' ', List.get?_eq_get hdN]
  simp only [Option.getD_some]
  exact List.get_mem alphabet d hdN

/-! ### Claims C5 and C6: the prefix allocator -/

/-- C5: the claim says the exhaustion error is raised if and only if all
`len(alphabet) ** prefix_length` candidates are taken.  The code instead
compares the number of distinct taken tokens with `len(alphabet)` alone, so
with `alphabet='ab'`, `prefix_length=2` and the text `'xy: zw:'` (two taken
tokens, neither of them even a candidate) it raises the exhaustion error even
though none of the four candidates is taken — contradicting the code's own
comment (`If we found all possible strings`), which matches the claim.  The
theorem evaluates the code at the failing input and records that the
candidate `'aa'` is free there. -/
theorem C5_code_result :
    autogenerate_empty_pfx ['x', 'y', ':', ' ', 'z', 'w', ':'] 2 ['a', 'b']
        = .error PErr.couldNotFindUnusedSequence
      ∧ ¬ (['a', 'a'] ++ [':']) <:+: ['x', 'y', ':', ' ', 'z', 'w', ':'] := by
  refine ⟨by decide, by decide⟩

/-- C6 counterexample: with an alphabet containing a non-word character, the
`(\w{L}):` scan cannot see occurrences of the candidate, so the returned
prefix can occur as `<candidate>:` in the text: on text `'-:'` with
`prefix_length=1`, `alphabet='-'` the code returns `'-'` although `'-:'`
occurs in the text. -/
theorem C6_counterexample :
    autogenerate_empty_pfx ['-', ':'] 1 ['-'] = .ok ['-']
      ∧ (['-'] ++ [':']) <:+: ['-', ':'] := by
  refine ⟨by decide, by decide⟩

/-- C6 (amended): provided every character of the alphabet is a word
character (true of the default lowercase alphabet), whenever
`autogenerate_empty_prefix` returns a prefix, that prefix has exactly the
requested length, is drawn from the alphabet, and `<prefix>:` does not occur
anywhere in the document text. -/
theorem C6_amended_thm (text : Str) (L : Nat) (alphabet p : Str)
    (halpha : ∀ c ∈ alphabet, isWordChar c = true)
    (hok : autogenerate_empty_pfx text L alphabet = .ok p) :
    p.length = L ∧ (∀ c ∈ p, c ∈ alphabet) ∧ ¬ (p ++ [':']) <:+: text := by
  unfold autogenerate_empty_pfx at hok
  by_cases hexh : ((findPrefixes L text).dedup).length = alphabet.length
  · rw [if_pos hexh] at hok
    cases hok
  · rw [if_neg hexh] at hok
    rcases hf : ((List.range (alphabet.length ^ L)).map (genPfx alphabet L)).find?
        (fun q => !((findPrefixes L text).dedup).contains q) with _ | q
    · rw [hf] at hok
      cases hok
    · rw [hf] at hok
      have hpq : q = p := by
        cases hok
        rfl
      subst hpq
      have hmem := List.mem_of_find?_eq_some hf
      have hpred := List.find?_some hf
      simp only [List.mem_map, List.mem_range] at hmem
      obtain ⟨count, hcount, hgen⟩ := hmem
      subst hgen
      have hlen := genPfx_length alphabet L count hcount
      have hmemal := genPfx_mem alphabet L count hcount
      refine ⟨hlen, hmemal, ?_⟩
      intro hinf
      have hword : ∀ c ∈ genPfx alphabet L count, isWordChar c = true :=
        fun c hc => halpha c (hmemal c hc)
      have hfound : genPfx alphabet L count ∈ findPrefixes L text :=
        findPrefixesF_complete L _ hword hlen text.length text (le_refl _) hinf
      have hded : genPfx alphabet L count ∈ (findPrefixes L text).dedup :=
        List.mem_dedup.mpr hfound
      simp only [Bool.not_eq_true'] at hpred
      have hcont : ((findPrefixes L text).dedup).contains (genPfx alphabet L count) = true := by
        simpa [List.contains] using List.elem_iff.mpr hded
      rw [hcont] at hpred
      cases hpred

theorem C6_amended_thm_witness :
    (['a'] : Str).length = 1 ∧ (∀ c ∈ (['a'] : Str), c ∈ (['a', 'b'] : Str))
      ∧ ¬ ((['a'] : Str) ++ [':']) <:+: ['x', 'x', ':'] :=
  C6_amended_thm ['x', 'x', ':'] 1 ['a', 'b'] ['a'] (by decide) (by decide)

/-! ### Lemmas about the empty-prefix declaration scan -/

theorem matchDecl_nil : matchDecl [] = none := by decide

theorem matchDecl_none_of_head {s : Str} (h : ∀ x, s.head? = some x → ¬ x = '"') :
    matchDecl s = none := by
  cases s with
  | nil => exact matchDecl_nil
  | cons c s' =>
    have hc : ¬ c = '"' := h c rfl
    have hpre : ¬ (['"', '"', ':'] : Str).isPrefixOf (c :: s') := by
      simp only [List.isPrefixOf, Bool.and_eq_true, beq_iff_eq]
      intro hx
      exact hc hx.1.symm
    simp [matchDecl, hpre]

theorem matchDecl_none_of_second {s : Str} (h : ∀ x, s.head? = some x → ¬ x = '"') :
    matchDecl ('"' :: s) = none := by
  cases s with
  | nil => decide
  | cons c s' =>
    have hc : ¬ c = '"' := h c rfl
    have hpre : ¬ (['"', '"', ':'] : Str).isPrefixOf ('"' :: c :: s') := by
      simp only [List.isPrefixOf, Bool.and_eq_true, beq_iff_eq]
      intro hx
      exact hc hx.2.1.symm
    simp [matchDecl, hpre]

theorem schemeAt_some {r3 sch : Str} (h : schemeAt r3 = some sch) :
    (sch = ['h', 't', 't', 'p', ':', '/', '/'] ∨ sch = ['h', 't', 't', 'p', 's', ':', '/', '/']
      ∨ sch = ['f', 'i', 'l', 'e', ':', '/', '/'])
    ∧ r3 = sch ++ r3.drop sch.length := by
  unfold schemeAt at h
  by_cases h1 : (['h', 't', 't', 'p', ':', '/', '/'] : Str).isPrefixOf r3
  · rw [if_pos h1] at h
    injection h with h
    subst h
    refine ⟨Or.inl rfl, ?_⟩
    obtain ⟨t, ht⟩ := List.isPrefixOf_iff_prefix.mp h1
    conv_lhs => rw [← ht]
    rw [← ht, List.drop_left]
  · rw [if_neg h1] at h
    by_cases h2 : (['h', 't', 't', 'p', 's', ':', '/', '/'] : Str).isPrefixOf r3
    · rw [if_pos h2] at h
      injection h with h
      subst h
      refine ⟨Or.inr (Or.inl rfl), ?_⟩
      obtain ⟨t, ht⟩ := List.isPrefixOf_iff_prefix.mp h2
      conv_lhs => rw [← ht]
      rw [← ht, List.drop_left]
    · rw [if_neg h2] at h
      by_cases h3 : (['f', 'i', 'l', 'e', ':', '/', '/'] : Str).isPrefixOf r3
      · rw [if_pos h3] at h
        injection h with h
        subst h
        refine ⟨Or.inr (Or.inr rfl), ?_⟩
        obtain ⟨t, ht⟩ := List.isPrefixOf_iff_prefix.mp h3
        conv_lhs => rw [← ht]
        rw [← ht, List.drop_left]
      · rw [if_neg h3] at h
        cases h

theorem matchDecl_some_decomp {s g after : Str} (h : matchDecl s = some (g, after)) :
    ∃ sp sch, (∀ c ∈ sp, isPySpace c = true)
      ∧ (sch = ['h', 't', 't', 'p', ':', '/', '/'] ∨ sch = ['h', 't', 't', 'p', 's', ':', '/', '/']
         ∨ sch = ['f', 'i', 'l', 'e', ':', '/', '/'])
      ∧ s = '"' :: '"' :: ':' :: (sp ++ '"' :: (sch ++ after))
      ∧ g = sp ++ '"' :: sch := by
  unfold matchDecl at h
  by_cases hpre : (['"', '"', ':'] : Str).isPrefixOf s
  · rw [if_pos hpre] at h
    simp only [] at h
    obtain ⟨t, ht⟩ := List.isPrefixOf_iff_prefix.mp hpre
    have hdrop : s.drop 3 = t := by
      rw [← ht]
      exact List.drop_left ['"', '"', ':'] t
    rw [hdrop] at h
    rcases hr2 : t.dropWhile isPySpace with _ | ⟨c, r3⟩
    · rw [hr2] at h
      cases h
    · rw [hr2] at h
      simp only [] at h
      by_cases hc : (c == '"') = true
      · rw [if_pos hc] at h
        rcases hsch : schemeAt r3 with _ | sch
        · rw [hsch] at h
          cases h
        · rw [hsch] at h
          injection h with h
          have hg : t.takeWhile isPySpace ++ '"' :: sch = g := congrArg Prod.fst h
          have hafter : r3.drop sch.length = after := congrArg Prod.snd h
          obtain ⟨hschemes, hr3⟩ := schemeAt_some hsch
          refine ⟨t.takeWhile isPySpace, sch, ?_, hschemes, ?_, hg.symm⟩
          · intro x hx
            exact List.mem_takeWhile_imp hx
          · have hcq : c = '"' := by simpa using hc
            have hs3 : s = '"' :: '"' :: ':' :: t := ht.symm
            rw [hs3]
            have : t = t.takeWhile isPySpace ++ '"' :: (sch ++ after) := by
              conv_lhs => rw [← List.takeWhile_append_dropWhile isPySpace t]
              rw [hr2, hcq]
              rw [← hafter, ← hr3]
            rw [← this]
      · rw [if_neg hc] at h
        cases h
  · rw [if_neg hpre] at h
    cases h

theorem isPySpace_ne_quote {c : Char} (h : isPySpace c = true) : ¬ c = '"' := by
  simp only [isPySpace, Bool.or_eq_true, beq_iff_eq] at h
  rcases h with ((h | h) | h) | h <;> (subst h; decide)

theorem sch_chars_ne_quote {sch : Str}
    (hsch : sch = ['h', 't', 't', 'p', ':', '/', '/'] ∨ sch = ['h', 't', 't', 'p', 's', ':', '/', '/']
      ∨ sch = ['f', 'i', 'l', 'e', ':', '/', '/']) :
    ∀ c ∈ sch, ¬ c = '"' := by
  rcases hsch with h | h | h <;> (subst h; decide)

theorem sch_head_ne_quote {sch : Str}
    (hsch : sch = ['h', 't', 't', 'p', ':', '/', '/'] ∨ sch = ['h', 't', 't', 'p', 's', ':', '/', '/']
      ∨ sch = ['f', 'i', 'l', 'e', ':', '/', '/']) :
    ∃ c0 z, sch = c0 :: z ∧ ¬ c0 = '"' := by
  rcases hsch with h | h | h <;> (subst h; exact ⟨_, _, rfl, by decide⟩)

theorem drop_head_mem {l : List Char} {n : Nat} (h : n < l.length) :
    ∃ y z, l.drop n = y :: z ∧ y ∈ l := by
  rcases hd : l.drop n with _ | ⟨y, z⟩
  · have := List.drop_eq_nil_iff_le.mp hd
    omega
  · refine ⟨y, z, rfl, ?_⟩
    have hy : y ∈ l.drop n := by
      rw [hd]
      exact List.mem_cons_self y z
    exact List.mem_of_mem_drop hy

theorem matchDecl_internal_none {sp sch after : Str}
    (hsp : ∀ c ∈ sp, isPySpace c = true)
    (hsch : sch = ['h', 't', 't', 'p', ':', '/', '/'] ∨ sch = ['h', 't', 't', 'p', 's', ':', '/', '/']
      ∨ sch = ['f', 'i', 'l', 'e', ':', '/', '/']) :
    ∀ k, 0 < k → k < 3 + sp.length + 1 + sch.length →
      matchDecl (('"' :: '"' :: ':' :: (sp ++ '"' :: (sch ++ after))).drop k) = none := by
  intro k hk0 hkC
  rcases k with _ | _ | _ | j
  · omega
  · -- position 1: the list starts '"' ':' ...
    simp only [List.drop_succ_cons, List.drop_zero]
    apply matchDecl_none_of_second
    intro x hx
    simp only [List.head?_cons, Option.some.injEq] at hx
    subst hx
    decide
  · -- position 2: the list starts ':' ...
    simp only [List.drop_succ_cons, List.drop_zero]
    apply matchDecl_none_of_head
    intro x hx
    simp only [List.head?_cons, Option.some.injEq] at hx
    subst hx
    decide
  · -- position 3 + j: inside sp, at the quote, or inside sch
    simp only [List.drop_succ_cons, List.drop_zero]
    by_cases hj1 : j < sp.length
    · obtain ⟨y, z, hyz, hymem⟩ := drop_head_mem hj1
      have hdec : (sp ++ '"' :: (sch ++ after)).drop j = y :: (z ++ '"' :: (sch ++ after)) := by
        rw [List.drop_append_eq_append_drop]
        rw [show j - sp.length = 0 from by omega]
        rw [List.drop_zero, hyz, List.cons_append]
      rw [hdec]
      apply matchDecl_none_of_head
      intro x hx
      simp only [List.head?_cons, Option.some.injEq] at hx
      subst hx
      exact isPySpace_ne_quote (hsp _ hymem)
    · by_cases hj2 : j = sp.length
      · have hdec : (sp ++ '"' :: (sch ++ after)).drop j = '"' :: (sch ++ after) := by
          subst hj2
          exact List.drop_left sp _
        rw [hdec]
        apply matchDecl_none_of_second
        obtain ⟨c0, z, hsz, hc0⟩ := sch_head_ne_quote hsch
        intro x hx
        rw [hsz] at hx
        simp only [List.cons_append, List.head?_cons, Option.some.injEq] at hx
        subst hx
        exact hc0
      · have hmlt : j - sp.length - 1 < sch.length := by omega
        obtain ⟨y, z, hyz, hymem⟩ := drop_head_mem hmlt
        have hdec : (sp ++ '"' :: (sch ++ after)).drop j = y :: (z ++ after) := by
          rw [List.drop_append_eq_append_drop]
          rw [List.drop_eq_nil_of_le (by omega : sp.length ≤ j)]
          rw [show j - sp.length = (j - sp.length - 1) + 1 from by omega]
          simp only [List.drop_succ_cons, List.nil_append]
          rw [List.drop_append_eq_append_drop]
          rw [show j - sp.length - 1 - sch.length = 0 from by omega]
          rw [List.drop_zero, hyz, List.cons_append]
        rw [hdec]
        apply matchDecl_none_of_head
        intro x hx
        simp only [List.head?_cons, Option.some.injEq] at hx
        subst hx
        exact sch_chars_ne_quote hsch _ hymem

theorem matchDecl_later {s g after : Str} (h : matchDecl s = some (g, after)) :
    ∀ k, 0 < k → (matchDecl (s.drop k)).isSome = true →
      ∃ m, s.drop k = after.drop m := by
  obtain ⟨sp, sch, hsp, hsch, hs, hg⟩ := matchDecl_some_decomp h
  intro k hk0 hkS
  by_cases hkC : k < 3 + sp.length + 1 + sch.length
  · rw [hs] at hkS
    rw [matchDecl_internal_none hsp hsch k hk0 hkC] at hkS
    simp at hkS
  · push_neg at hkC
    refine ⟨k - (3 + sp.length + 1 + sch.length), ?_⟩
    rw [hs]
    have hP : '"' :: '"' :: ':' :: (sp ++ '"' :: (sch ++ after))
        = ('"' :: '"' :: ':' :: (sp ++ '"' :: sch)) ++ after := by
      simp [List.append_assoc]
    rw [hP, List.drop_append_eq_append_drop]
    have hlenP : ('"' :: '"' :: ':' :: (sp ++ '"' :: sch)).length
        = 3 + sp.length + 1 + sch.length := by
      simp only [List.length_cons, List.length_append]
      omega
    rw [List.drop_eq_nil_of_le (by rw [hlenP]; omega)]
    rw [hlenP]
    simp

theorem matchDecl_after_length {s g after : Str} (h : matchDecl s = some (g, after)) :
    after.length + 11 ≤ s.length := by
  obtain ⟨sp, sch, hsp, hsch, hs, hg⟩ := matchDecl_some_decomp h
  have hsch7 : 7 ≤ sch.length := by rcases hsch with h1 | h1 | h1 <;> (subst h1; decide)
  rw [hs]
  simp only [List.length_cons, List.length_append]
  omega

theorem subnDecl_count_step_some (pfx : Str) (fuel : Nat) {c : Char} {rest g after : Str}
    (hm : matchDecl (c :: rest) = some (g, after)) :
    (subnDecl pfx (fuel + 1) (c :: rest)).2 = (subnDecl pfx fuel after).2 + 1 := by
  simp [subnDecl, hm]

theorem subnDecl_count_step_none (pfx : Str) (fuel : Nat) {c : Char} {rest : Str}
    (hm : matchDecl (c :: rest) = none) :
    (subnDecl pfx (fuel + 1) (c :: rest)).2 = (subnDecl pfx fuel rest).2 := by
  simp [subnDecl, hm]

theorem subnDecl_ge_one (pfx : Str) :
    ∀ fuel s, s.length ≤ fuel → (∃ k, (matchDecl (s.drop k)).isSome = true) →
      1 ≤ (subnDecl pfx fuel s).2 := by
  intro fuel
  induction fuel with
  | zero =>
    intro s hlen hex
    have hs : s = [] := List.eq_nil_of_length_eq_zero (Nat.le_zero.mp hlen)
    subst hs
    obtain ⟨k, hk⟩ := hex
    rw [List.drop_nil, matchDecl_nil] at hk
    simp at hk
  | succ fuel ih =>
    intro s hlen hex
    cases s with
    | nil =>
      obtain ⟨k, hk⟩ := hex
      rw [List.drop_nil, matchDecl_nil] at hk
      simp at hk
    | cons c rest =>
      simp only [List.length_cons] at hlen
      rcases hm : matchDecl (c :: rest) with _ | ⟨g, after⟩
      · obtain ⟨k, hk⟩ := hex
        rcases k with _ | k
        · rw [List.drop_zero, hm] at hk
          simp at hk
        · rw [subnDecl_count_step_none pfx fuel hm]
          exact ih rest (by omega) ⟨k, by simpa using hk⟩
      · rw [subnDecl_count_step_some pfx fuel hm]
        omega

theorem subnDecl_ge_two (pfx : Str) :
    ∀ fuel s i j, s.length ≤ fuel → i < j →
      (matchDecl (s.drop i)).isSome = true → (matchDecl (s.drop j)).isSome = true →
      2 ≤ (subnDecl pfx fuel s).2 := by
  intro fuel
  induction fuel with
  | zero =>
    intro s i j hlen _ hi _
    have hs : s = [] := List.eq_nil_of_length_eq_zero (Nat.le_zero.mp hlen)
    subst hs
    rw [List.drop_nil, matchDecl_nil] at hi
    simp at hi
  | succ fuel ih =>
    intro s i j hlen hij hi hj
    cases s with
    | nil =>
      rw [List.drop_nil, matchDecl_nil] at hi
      simp at hi
    | cons c rest =>
      simp only [List.length_cons] at hlen
      rcases hm : matchDecl (c :: rest) with _ | ⟨g, after⟩
      · rcases i with _ | i
        · rw [List.drop_zero, hm] at hi
          simp at hi
        · rcases j with _ | j
          · omega
          · rw [subnDecl_count_step_none pfx fuel hm]
            exact ih rest i j (by omega) (by omega) (by simpa using hi) (by simpa using hj)
      · rw [subnDecl_count_step_some pfx fuel hm]
        have hafter : after.length + 11 ≤ rest.length + 1 := matchDecl_after_length hm
        have hone : 1 ≤ (subnDecl pfx fuel after).2 := by
          rcases Nat.eq_zero_or_pos i with hi0 | hip
          · obtain ⟨m, hmj⟩ := matchDecl_later hm j (by omega) hj
            refine subnDecl_ge_one pfx fuel after (by omega) ⟨m, ?_⟩
            rw [← hmj]
            exact hj
          · obtain ⟨m, hmi⟩ := matchDecl_later hm i hip hi
            refine subnDecl_ge_one pfx fuel after (by omega) ⟨m, ?_⟩
            rw [← hmi]
            exact hi
        omega

theorem subnDecl_no_match (pfx : Str) :
    ∀ fuel s, (∀ k, matchDecl (s.drop k) = none) → subnDecl pfx fuel s = (s, 0) := by
  intro fuel
  induction fuel with
  | zero => intro s _; rfl
  | succ fuel ih =>
    intro s h
    cases s with
    | nil => rfl
    | cons c rest =>
      have hm : matchDecl (c :: rest) = none := by simpa using h 0
      have hrec : subnDecl pfx fuel rest = (rest, 0) :=
        ih rest (fun k => by simpa using h (k + 1))
      simp [subnDecl, hm, hrec]

/-! ### Claims C7 and C10: the empty-prefix declaration substitution -/

/-- C7: for every text containing more than one occurrence of the empty-prefix
declaration pattern (two positions where the pattern matches), the function
raises the fatal `multiple tokens` error and returns no rewritten text. -/
theorem C7_multiple_decls_error (text pfx : Str) (i j : Nat) (hij : i < j)
    (hi : (matchDecl (text.drop i)).isSome = true)
    (hj : (matchDecl (text.drop j)).isSome = true) :
    replace_empty_pfx text pfx = .error PErr.multipleEmptyStringContexts := by
  have h2 := subnDecl_ge_two pfx text.length text i j (le_refl _) hij hi hj
  unfold replace_empty_pfx
  rw [if_neg (by omega), if_pos (by omega)]

theorem C7_multiple_decls_error_witness :
    replace_empty_pfx
        (['"', '"', ':', '"', 'h', 't', 't', 'p', ':', '/', '/']
          ++ ['"', '"', ':', '"', 'h', 't', 't', 'p', ':', '/', '/']) ['x']
      = .error PErr.multipleEmptyStringContexts :=
  C7_multiple_decls_error _ ['x'] 0 11 (by omega) (by decide) (by decide)

/-- C10: a document with zero occurrences of the empty-prefix declaration
pattern is returned unchanged and without error by `replace_empty_prefix` (in
particular no Step-B token rewriting happens), and `precondition` then still
applies the line-number embedding to it. -/
theorem C10_zero_decls (text pfx : Str)
    (h : ∀ k < text.length, matchDecl (text.drop k) = none) :
    replace_empty_pfx text pfx = .ok text
      ∧ precondition text (some pfx) = .ok (embed_line_numbers text) := by
  have hall : ∀ k, matchDecl (text.drop k) = none := by
    intro k
    by_cases hk : k < text.length
    · exact h k hk
    · rw [List.drop_eq_nil_of_le (by omega)]
      exact matchDecl_nil
  have hz := subnDecl_no_match pfx text.length text hall
  have hrep : replace_empty_pfx text pfx = .ok text := by
    unfold replace_empty_pfx
    rw [hz]
    simp
  refine ⟨hrep, ?_⟩
  unfold precondition
  simp only [hrep]

theorem C10_zero_decls_witness :
    replace_empty_pfx ['h', 'i'] ['a', 'b', 'c'] = .ok ['h', 'i']
      ∧ precondition ['h', 'i'] (some ['a', 'b', 'c'])
        = .ok (embed_line_numbers ['h', 'i']) :=
  C10_zero_decls ['h', 'i'] ['a', 'b', 'c'] (by decide)

/-! ### Lemmas about the line-number embedding -/

theorem takeWhile_app {p : Char → Bool} :
    ∀ (a : Str) (x : Char) (t : Str), (∀ c ∈ a, p c = true) → p x = false →
      (a ++ x :: t).takeWhile p = a ∧ (a ++ x :: t).dropWhile p = x :: t := by
  intro a
  induction a with
  | nil =>
    intro x t _ hx
    constructor
    · simp [List.takeWhile_cons, hx]
    · simp [List.dropWhile_cons, hx]
  | cons c a2 ih =>
    intro x t h hx
    have hc := h c (by simp)
    obtain ⟨h1, h2⟩ := ih x t (fun y hy => h y (by simp [hy])) hx
    constructor
    · simp only [List.cons_append, List.takeWhile_cons, hc, if_true]
      rw [h1]
    · simp only [List.cons_append, List.dropWhile_cons, hc, if_true]
      exact h2

theorem splitNl_joinNl : ∀ (lines : List Str), lines ≠ [] → (∀ l ∈ lines, ¬ '\n' ∈ l) →
    splitNl (joinNl lines) = lines := by
  intro lines
  induction lines with
  | nil => intro h _; exact absurd rfl h
  | cons l ls ih =>
    intro _ hnl
    cases ls with
    | nil =>
      show pySplit ['\n'] l = [l]
      apply pySplit_of_no_occ
      intro hinf
      obtain ⟨s, t, hst⟩ := hinf
      refine hnl l (by simp) ?_
      rw [← hst]
      simp
    | cons l2 ls2 =>
      show pySplit ['\n'] (joinNl (l :: l2 :: ls2)) = l :: l2 :: ls2
      have hjoin : joinNl (l :: l2 :: ls2) = l ++ ['\n'] ++ joinNl (l2 :: ls2) := by
        show l ++ '\n' :: joinNl (l2 :: ls2) = l ++ ['\n'] ++ joinNl (l2 :: ls2)
        simp
      rw [hjoin]
      have hb := pySplit_boundary '\n' [] l (joinNl (l2 :: ls2))
        (fun c hc he => hnl l (by simp) (he ▸ hc))
      rw [hb]
      have hih := ih (by simp) (fun x hx => hnl x (by simp [hx]))
      unfold splitNl at hih
      rw [hih]

theorem mapWithIndex_length (f : Nat → Str → Str) :
    ∀ ls s, (mapWithIndex f s ls).length = ls.length := by
  intro ls
  induction ls with
  | nil => intro s; rfl
  | cons l ls ih => intro s; simp [mapWithIndex, ih]

theorem mapWithIndex_get? (f : Nat → Str → Str) :
    ∀ ls s i, (mapWithIndex f s ls).get? i = (ls.get? i).map (f (s + i)) := by
  intro ls
  induction ls with
  | nil => intro s i; simp [mapWithIndex]
  | cons l ls ih =>
    intro s i
    cases i with
    | zero => simp [mapWithIndex]
    | succ i =>
      show (mapWithIndex f (s + 1) ls).get? i = _
      rw [ih (s + 1) i]
      have : s + 1 + i = s + (i + 1) := by omega
      rw [this]
      rfl

theorem typeClass_quote : typeClass '"' = false := by decide

theorem embedMatch_of_shape {line s1 s2 v rest : Str} (h : TypeShape line s1 s2 v rest) :
    embedMatch line = some (s1 ++ litAtType ++ s2 ++ ['"'], v) := by
  obtain ⟨hline, hs1, hs2, hv, hvc⟩ := h
  have hline' : line
      = s1 ++ '"' :: (['@', 't', 'y', 'p', 'e', '"', ':']
          ++ (s2 ++ '"' :: (v ++ '"' :: ',' :: rest))) := by
    rw [hline]
    simp [litAtType]
  have hsp1 : ∀ c ∈ s1, (fun c => c == ' ') c = true := by
    intro c hc
    simp [hs1 c hc]
  have hsp2 : ∀ c ∈ s2, (fun c => c == ' ') c = true := by
    intro c hc
    simp [hs2 c hc]
  obtain ⟨ht1, hd1⟩ := takeWhile_app s1 '"'
    (['@', 't', 'y', 'p', 'e', '"', ':'] ++ (s2 ++ '"' :: (v ++ '"' :: ',' :: rest)))
    hsp1 (by decide)
  obtain ⟨ht2, hd2⟩ := takeWhile_app s2 '"' (v ++ '"' :: ',' :: rest) hsp2 (by decide)
  obtain ⟨ht3, hd3⟩ := takeWhile_app v '"' (',' :: rest)
    (fun c hc => hvc c hc) typeClass_quote
  have hr1 : line.dropWhile (fun c => c == ' ')
      = litAtType ++ (s2 ++ '"' :: (v ++ '"' :: ',' :: rest)) := by
    rw [hline', hd1]
    simp [litAtType]
  have hpre : litAtType.isPrefixOf (line.dropWhile (fun c => c == ' ')) = true := by
    rw [hr1]
    exact List.isPrefixOf_iff_prefix.mpr (List.prefix_append _ _)
  have hr2 : (line.dropWhile (fun c => c == ' ')).drop litAtType.length
      = s2 ++ '"' :: (v ++ '"' :: ',' :: rest) := by
    rw [hr1]
    exact List.drop_left _ _
  have hvne : v.isEmpty = false := by
    cases v with
    | nil => exact absurd rfl hv
    | cons a b => rfl
  unfold embedMatch
  rw [if_pos hpre]
  simp only []
  rw [hline', ht1, hd1]
  have hlit : (('"' :: (['@', 't', 'y', 'p', 'e', '"', ':']
      ++ (s2 ++ '"' :: (v ++ '"' :: ',' :: rest)))).drop litAtType.length)
      = s2 ++ '"' :: (v ++ '"' :: ',' :: rest) := by
    show (litAtType ++ (s2 ++ '"' :: (v ++ '"' :: ',' :: rest))).drop litAtType.length
      = s2 ++ '"' :: (v ++ '"' :: ',' :: rest)
    exact List.drop_left _ _
  rw [hlit, ht2, hd2]
  simp only [beq_self_eq_true, if_true]
  rw [ht3, hd3, hvne]
  simp

theorem shape_of_embedMatch {line g1 g2 : Str} (h : embedMatch line = some (g1, g2)) :
    ∃ s1 s2 rest, TypeShape line s1 s2 g2 rest := by
  unfold embedMatch at h
  by_cases hpre : litAtType.isPrefixOf (line.dropWhile (fun c => c == ' ')) = true
  · rw [if_pos hpre] at h
    simp only [] at h
    obtain ⟨t, ht⟩ := List.isPrefixOf_iff_prefix.mp hpre
    have hr2 : (line.dropWhile (fun c => c == ' ')).drop litAtType.length = t := by
      rw [← ht]
      exact List.drop_left _ _
    rw [hr2] at h
    rcases hr3 : t.dropWhile (fun c => c == ' ') with _ | ⟨c, r4⟩
    · rw [hr3] at h
      cases h
    · rw [hr3] at h
      simp only [] at h
      by_cases hc : (c == '"') = true
      · rw [if_pos hc] at h
        have hcq : c = '"' := by simpa using hc
        by_cases hve : (r4.takeWhile typeClass).isEmpty = true
        · rw [if_pos hve] at h
          cases h
        · rw [if_neg hve] at h
          rcases hr5 : r4.dropWhile typeClass with _ | ⟨c1, _ | ⟨c2, r6⟩⟩
          · rw [hr5] at h
            cases h
          · rw [hr5] at h
            cases h
          · rw [hr5] at h
            simp only [] at h
            by_cases hc12 : (c1 == '"' && c2 == ',') = true
            · rw [if_pos hc12] at h
              injection h with h
              have hg1 : line.takeWhile (fun c => c == ' ') ++ litAtType
                  ++ t.takeWhile (fun c => c == ' ') ++ ['"'] = g1 :=
                congrArg Prod.fst h
              have hg2 : r4.takeWhile typeClass = g2 := congrArg Prod.snd h
              have hc1q : c1 = '"' := by
                have := (Bool.and_eq_true _ _).mp hc12
                simpa using this.1
              have hc2q : c2 = ',' := by
                have := (Bool.and_eq_true _ _).mp hc12
                simpa using this.2
              refine ⟨line.takeWhile (fun c => c == ' '), t.takeWhile (fun c => c == ' '),
                r6, ?_, ?_, ?_, ?_, ?_⟩
              · -- the decomposition of the line
                have htt : t = t.takeWhile (fun c => c == ' ')
                    ++ '"' :: (g2 ++ '"' :: ',' :: r6) := by
                  conv_lhs => rw [← List.takeWhile_append_dropWhile (fun c => c == ' ') t]
                  have hr4 : r4 = g2 ++ '"' :: ',' :: r6 := by
                    conv_lhs => rw [← List.takeWhile_append_dropWhile typeClass r4]
                    rw [hr5, hg2, hc1q, hc2q]
                  rw [hr3, hcq]
                  conv_lhs => rw [hr4]
                conv_lhs => rw [← List.takeWhile_append_dropWhile (fun c => c == ' ') line]
                conv_lhs => rw [← ht]
                conv_lhs => rw [htt]
                simp [List.append_assoc]
              · intro x hx
                have := List.mem_takeWhile_imp hx
                simpa using this
              · intro x hx
                have := List.mem_takeWhile_imp hx
                simpa using this
              · intro hg2nil
                rw [← hg2] at hg2nil
                rw [hg2nil] at hve
                exact hve rfl
              · intro x hx
                rw [← hg2] at hx
                exact List.mem_takeWhile_imp hx
            · rw [if_neg hc12] at h
              cases h
      · rw [if_neg hc] at h
        cases h
  · rw [if_neg hpre] at h
    cases h

/-! ### Claim C2: line-number embedding -/

/-- C2 counterexample: on the single-line text `"@type": "P",x` the matcher
matches the prefix `"@type": "P",` of the line and the replacement is built
from the groups alone, so the trailing `x` is dropped — the claim says the
rest of the line is left intact. -/
theorem C2_counterexample :
    embed_line_numbers ['"', '@', 't', 'y', 'p', 'e', '"', ':', ' ', '"', 'P', '"', ',', 'x']
        = ['"', '@', 't', 'y', 'p', 'e', '"', ':', ' ', '"', 'P'] ++ lineSep ++ ['1', '"', ',']
      ∧ (['"', '@', 't', 'y', 'p', 'e', '"', ':', ' ', '"', 'P'] ++ lineSep ++ ['1', '"', ','] : Str)
        ≠ ['"', '@', 't', 'y', 'p', 'e', '"', ':', ' ', '"', 'P'] ++ lineSep ++ ['1', '"', ',', 'x'] := by
  refine ⟨by decide, by decide⟩

/-- C2 (amended): for every nonempty list of newline-free lines, the output of
`embed_line_numbers` on their join is the join of a line list of the same
length in which every line that matches the type-declaration shape — zero or
more SPACES, `"@type":`, zero or more spaces, a quoted nonempty value over
the class (word chars, `:`, `#`, `/`, `-`), then `",` — is replaced by exactly
that matched prefix with `_LINE_<n>` appended to the value (`n` the 1-based
line position), discarding any text after the matched `",`, and every other
line is left untouched. -/
theorem C2_amended_thm (lines : List Str) (hne : lines ≠ [])
    (hnl : ∀ l ∈ lines, ¬ '\n' ∈ l) :
    ∃ out : List Str,
      embed_line_numbers (joinNl lines) = joinNl out
        ∧ out.length = lines.length
        ∧ ∀ i line, lines.get? i = some line →
            ((∀ s1 s2 v rest, ¬ TypeShape line s1 s2 v rest) → out.get? i = some line)
            ∧ (∀ s1 s2 v rest, TypeShape line s1 s2 v rest →
                out.get? i = some (s1 ++ litAtType ++ s2
                  ++ '"' :: (v ++ lineSep ++ natToStr (i + 1) ++ ['"', ',']))) := by
  refine ⟨mapWithIndex (fun i l => embedLine (i + 1) l) 0 lines, ?_, ?_, ?_⟩
  · unfold embed_line_numbers
    rw [splitNl_joinNl lines hne hnl]
  · exact mapWithIndex_length _ lines 0
  · intro i line hline
    constructor
    · intro hnoshape
      rw [mapWithIndex_get? _ lines 0 i, hline]
      have hnone : embedMatch line = none := by
        rcases hm : embedMatch line with _ | ⟨g1, g2⟩
        · rfl
        · obtain ⟨s1, s2, rest, hsh⟩ := shape_of_embedMatch hm
          exact absurd hsh (hnoshape s1 s2 g2 rest)
      simp [embedLine, hnone]
    · intro s1 s2 v rest hsh
      rw [mapWithIndex_get? _ lines 0 i, hline]
      have hm := embedMatch_of_shape hsh
      simp [embedLine, hm, List.append_assoc]

theorem C2_amended_thm_witness :
    ∃ out : List Str,
      embed_line_numbers (joinNl [exTypeLine]) = joinNl out
        ∧ out.length = [exTypeLine].length
        ∧ ∀ i line, [exTypeLine].get? i = some line →
            ((∀ s1 s2 v rest, ¬ TypeShape line s1 s2 v rest) → out.get? i = some line)
            ∧ (∀ s1 s2 v rest, TypeShape line s1 s2 v rest →
                out.get? i = some (s1 ++ litAtType ++ s2
                  ++ '"' :: (v ++ lineSep ++ natToStr (i + 1) ++ ['"', ',']))) :=
  C2_amended_thm [exTypeLine] (by decide) (by decide)

/-! ### Lemmas about the postcondition -/

theorem extract_no_sep {t : Str} (h : ¬ lineSep <:+: t) :
    extract_line_number t = .ok (t, none) := by
  unfold extract_line_number
  rw [pyRsplit_no_sep t h]
  simp

theorem extract_some_ne_nil {d : Str} {d' : Str} {n : Int}
    (hx : extract_line_number d = .ok (d', some n)) : d ≠ [] := by
  intro hdnil
  subst hdnil
  rw [show extract_line_number [] = .ok (([] : Str), none) from by decide] at hx
  cases hx

theorem datatypeTruthy_of_ne_nil {d : Str} (h : d ≠ []) : datatypeTruthy (some d) = true := by
  cases d with
  | nil => exact absurd rfl h
  | cons a b => rfl

theorem postStep1_lit_suffix {s : Node} {v d d' : Str} {n : Int} {tbl : Tbl}
    (hx : extract_line_number d = .ok (d', some n)) (hn : ¬ n = 0) :
    postStep1 s (Node.literal v (some d)) tbl
      = .ok (Node.literal v (some d'), updTbl tbl s n) := by
  have htr := datatypeTruthy_of_ne_nil (extract_some_ne_nil hx)
  unfold postStep1
  simp only []
  rw [htr]
  simp only [Option.getD_some, hx, if_pos hn]
  simp

theorem postStep2_truthy {ctx : Ctx} {v d' : Str} (hd : d' ≠ []) :
    postStep2 ctx (Node.literal v (some d')) = Node.literal v (some d') := by
  unfold postStep2
  simp only []
  rw [datatypeTruthy_of_ne_nil hd]
  simp

theorem postStep3_lit {s : Node} {v : Str} {dt : Option Str} {tbl : Tbl} :
    postStep3 s (Node.literal v dt) tbl = .ok (Node.literal v dt, tbl) := rfl

theorem postTriple_lit_datatype {ctx : Ctx} {s : Node} {v d d' : Str} {n : Int} {tbl : Tbl}
    (hx : extract_line_number d = .ok (d', some n)) (hn : ¬ n = 0) (hd : d' ≠ []) :
    postTriple ctx s (Node.literal v (some d)) tbl
      = .ok (Node.literal v (some d'), updTbl tbl s n) := by
  unfold postTriple
  rw [postStep1_lit_suffix hx hn]
  simp only []
  rw [postStep2_truthy hd, postStep3_lit]

theorem postStep1_lit_no_datatype {s : Node} {v : Str} {tbl : Tbl} :
    postStep1 s (Node.literal v none) tbl = .ok (Node.literal v none, tbl) := rfl

theorem postTriple_lit_promote {ctx : Ctx} {s : Node} {v p0 p1 exp : Str} {tbl : Tbl}
    (hsplit : splitFirstColon v = (p0, some p1)) (hctx : ctx p0 = some exp)
    (hns : ¬ lineSep <:+: (exp ++ p1)) :
    postTriple ctx s (Node.literal v none) tbl = .ok (Node.uriref (exp ++ p1), tbl) := by
  unfold postTriple
  rw [postStep1_lit_no_datatype]
  simp only []
  have h2 : postStep2 ctx (Node.literal v none) = Node.uriref (exp ++ p1) := by
    unfold postStep2
    simp only [datatypeTruthy, Bool.false_eq_true, if_false, hsplit, hctx]
  rw [h2]
  unfold postStep3
  simp only []
  rw [extract_no_sep hns]

theorem postTriple_bnode {ctx : Ctx} {s : Node} {b : Str} {tbl : Tbl} :
    postTriple ctx s (Node.bnode b) tbl = .ok (Node.bnode b, tbl) := rfl

theorem postStep1_tbl {s o : Node} {tbl : Tbl} {o' : Node} {tbl' : Tbl}
    (h : postStep1 s o tbl = .ok (o', tbl')) :
    tbl' = tbl ∨ ∃ n : Int, tbl' = updTbl tbl s n := by
  unfold postStep1 at h
  rcases o with u | ⟨v, dt⟩ | b
  · simp only [Except.ok.injEq, Prod.mk.injEq] at h
    exact Or.inl h.2.symm
  · simp only [] at h
    by_cases htr : datatypeTruthy dt = true
    · rw [if_pos htr] at h
      rcases hex : extract_line_number (dt.getD []) with e | ⟨strip, number⟩
      · rw [hex] at h
        cases h
      · rw [hex] at h
        simp only [] at h
        rcases number with _ | n
        · simp only [Except.ok.injEq, Prod.mk.injEq] at h
          exact Or.inl h.2.symm
        · simp only [] at h
          by_cases hn : n ≠ 0
          · rw [if_pos hn] at h
            simp only [Except.ok.injEq, Prod.mk.injEq] at h
            exact Or.inr ⟨n, h.2.symm⟩
          · rw [if_neg hn] at h
            simp only [Except.ok.injEq, Prod.mk.injEq] at h
            exact Or.inl h.2.symm
    · rw [if_neg htr] at h
      simp only [Except.ok.injEq, Prod.mk.injEq] at h
      exact Or.inl h.2.symm
  · simp only [Except.ok.injEq, Prod.mk.injEq] at h
    exact Or.inl h.2.symm

theorem postStep3_tbl {s o : Node} {tbl : Tbl} {o' : Node} {tbl' : Tbl}
    (h : postStep3 s o tbl = .ok (o', tbl')) :
    tbl' = tbl ∨ ∃ n : Int, tbl' = updTbl tbl s n := by
  unfold postStep3 at h
  rcases o with u | ⟨v, dt⟩ | b
  · simp only [] at h
    rcases hex : extract_line_number u with e | ⟨strip, number⟩
    · rw [hex] at h
      cases h
    · rw [hex] at h
      simp only [] at h
      rcases number with _ | n
      · simp only [Except.ok.injEq, Prod.mk.injEq] at h
        exact Or.inl h.2.symm
      · simp only [] at h
        by_cases hn : n ≠ 0
        · rw [if_pos hn] at h
          simp only [Except.ok.injEq, Prod.mk.injEq] at h
          exact Or.inr ⟨n, h.2.symm⟩
        · rw [if_neg hn] at h
          simp only [Except.ok.injEq, Prod.mk.injEq] at h
          exact Or.inl h.2.symm
  · simp only [Except.ok.injEq, Prod.mk.injEq] at h
    exact Or.inl h.2.symm
  · simp only [Except.ok.injEq, Prod.mk.injEq] at h
    exact Or.inl h.2.symm

theorem updTbl_other {tbl : Tbl} {s x : Node} {n : Int} (hx : ¬ x = s) :
    updTbl tbl s n x = tbl x := by
  simp [updTbl, hx]

theorem updTbl_self {tbl : Tbl} {s : Node} {n : Int} : updTbl tbl s n s = some n := by
  simp [updTbl]

theorem postTriple_tbl_other {ctx : Ctx} {s o : Node} {tbl : Tbl} {o' : Node} {tbl' : Tbl}
    (h : postTriple ctx s o tbl = .ok (o', tbl'))
    (x : Node) (hx : ¬ x = s) : tbl' x = tbl x := by
  unfold postTriple at h
  rcases h1 : postStep1 s o tbl with e | ⟨o1, tbl1⟩
  · rw [h1] at h
    cases h
  · rw [h1] at h
    simp only [] at h
    rcases postStep3_tbl h with h3 | ⟨m, h3⟩ <;>
      rcases postStep1_tbl h1 with h2 | ⟨n, h2⟩ <;>
        subst h3 <;> subst h2 <;> simp [updTbl_other hx]

theorem postTriple_tbl_mono {ctx : Ctx} {s o : Node} {tbl : Tbl} {o' : Node} {tbl' : Tbl}
    (h : postTriple ctx s o tbl = .ok (o', tbl'))
    (x : Node) : tbl' x = tbl x ∨ ∃ m : Int, tbl' x = some m := by
  unfold postTriple at h
  rcases h1 : postStep1 s o tbl with e | ⟨o1, tbl1⟩
  · rw [h1] at h
    cases h
  · rw [h1] at h
    simp only [] at h
    by_cases hx : x = s
    · subst hx
      rcases postStep3_tbl h with h3 | ⟨m, h3⟩ <;>
        rcases postStep1_tbl h1 with h2 | ⟨n, h2⟩ <;>
          subst h3 <;> subst h2
      · exact Or.inl rfl
      · exact Or.inr ⟨n, updTbl_self⟩
      · exact Or.inr ⟨m, updTbl_self⟩
      · exact Or.inr ⟨m, updTbl_self⟩
    · rcases postStep3_tbl h with h3 | ⟨m, h3⟩ <;>
        rcases postStep1_tbl h1 with h2 | ⟨n, h2⟩ <;>
          subst h3 <;> subst h2 <;> simp [updTbl_other hx]

theorem postRun_tbl_other (ctx : Ctx) :
    ∀ graph tbl g' tblF, postRun ctx graph tbl = .ok (g', tblF) →
      ∀ x, (∀ t ∈ graph, ¬ t.1 = x) → tblF x = tbl x := by
  intro graph
  induction graph with
  | nil =>
    intro tbl g' tblF h x _
    simp only [postRun, Except.ok.injEq, Prod.mk.injEq] at h
    rw [← h.2]
  | cons tr rest ih =>
    intro tbl g' tblF h x hx
    obtain ⟨s0, p0, o0⟩ := tr
    unfold postRun at h
    rcases hpt : postTriple ctx s0 o0 tbl with e | ⟨o1, tbl1⟩
    · rw [hpt] at h
      cases h
    · rw [hpt] at h
      simp only [] at h
      rcases hrr : postRun ctx rest tbl1 with e | ⟨g1, tblF1⟩
      · rw [hrr] at h
        cases h
      · rw [hrr] at h
        simp only [Except.ok.injEq, Prod.mk.injEq] at h
        have hx0 : ¬ x = s0 := by
          intro he
          exact hx (s0, p0, o0) (by simp) (by simp [← he])
        have h1 := postTriple_tbl_other hpt x hx0
        have h2 := ih tbl1 g1 tblF1 hrr x (fun t ht => hx t (by simp [ht]))
        rw [← h.2, h2, h1]

theorem postRun_tbl_mono (ctx : Ctx) :
    ∀ graph tbl g' tblF, postRun ctx graph tbl = .ok (g', tblF) →
      ∀ x, tblF x = tbl x ∨ ∃ m : Int, tblF x = some m := by
  intro graph
  induction graph with
  | nil =>
    intro tbl g' tblF h x
    simp only [postRun, Except.ok.injEq, Prod.mk.injEq] at h
    rw [← h.2]
    exact Or.inl rfl
  | cons tr rest ih =>
    intro tbl g' tblF h x
    obtain ⟨s0, p0, o0⟩ := tr
    unfold postRun at h
    rcases hpt : postTriple ctx s0 o0 tbl with e | ⟨o1, tbl1⟩
    · rw [hpt] at h
      cases h
    · rw [hpt] at h
      simp only [] at h
      rcases hrr : postRun ctx rest tbl1 with e | ⟨g1, tblF1⟩
      · rw [hrr] at h
        cases h
      · rw [hrr] at h
        simp only [Except.ok.injEq, Prod.mk.injEq] at h
        rcases ih tbl1 g1 tblF1 hrr x with h2 | ⟨m, h2⟩
        · rcases postTriple_tbl_mono hpt x with h1 | ⟨m, h1⟩
          · rw [← h.2, h2, h1]
            exact Or.inl rfl
          · rw [← h.2, h2, h1]
            exact Or.inr ⟨m, rfl⟩
        · rw [← h.2, h2]
          exact Or.inr ⟨m, rfl⟩

theorem postRun_spec (ctx : Ctx) :
    ∀ graph tbl g' tblF, postRun ctx graph tbl = .ok (g', tblF) →
      g'.length = graph.length
      ∧ ∀ i s p o, graph.get? i = some (s, p, o) →
          ∃ o' tb tb', g'.get? i = some (s, p, o') ∧ postTriple ctx s o tb = .ok (o', tb') := by
  intro graph
  induction graph with
  | nil =>
    intro tbl g' tblF h
    simp only [postRun, Except.ok.injEq, Prod.mk.injEq] at h
    constructor
    · rw [← h.1]
    · intro i s p o hi
      simp at hi
  | cons tr rest ih =>
    intro tbl g' tblF h
    obtain ⟨s0, p0, o0⟩ := tr
    unfold postRun at h
    rcases hpt : postTriple ctx s0 o0 tbl with e | ⟨o1, tbl1⟩
    · rw [hpt] at h
      cases h
    · rw [hpt] at h
      simp only [] at h
      rcases hrr : postRun ctx rest tbl1 with e | ⟨g1, tblF1⟩
      · rw [hrr] at h
        cases h
      · rw [hrr] at h
        simp only [Except.ok.injEq, Prod.mk.injEq] at h
        obtain ⟨hg, htb⟩ := h
        obtain ⟨hlen1, hget1⟩ := ih tbl1 g1 tblF1 hrr
        constructor
        · rw [← hg]
          simp [hlen1]
        · intro i s p o hi
          cases i with
          | zero =>
            simp only [List.get?] at hi
            injection hi with hi
            have hs : s0 = s := congrArg (fun t => t.1) hi
            have hp : p0 = p := congrArg (fun t => t.2.1) hi
            have ho : o0 = o := congrArg (fun t => t.2.2) hi
            rw [← hg]
            refine ⟨o1, tbl, tbl1, by simp [hs, hp], ?_⟩
            rw [← hs, ← ho]
            exact hpt
          | succ i' =>
            obtain ⟨o', tb, tb', hgo, hpo⟩ := hget1 i' s p o (by simpa using hi)
            refine ⟨o', tb, tb', ?_, hpo⟩
            rw [← hg]
            simpa using hgo

theorem postRun_lit_datatype (ctx : Ctx) :
    ∀ graph tbl0 g' tblF i s p v d d' n,
      postRun ctx graph tbl0 = .ok (g', tblF) →
      graph.get? i = some (s, p, Node.literal v (some d)) →
      extract_line_number d = .ok (d', some n) → ¬ n = 0 → d' ≠ [] →
      g'.get? i = some (s, p, Node.literal v (some d'))
        ∧ (tblF s).isSome = true
        ∧ ((∀ j t, i < j → graph.get? j = some t → ¬ t.1 = s) → tblF s = some n) := by
  intro graph
  induction graph with
  | nil =>
    intro tbl0 g' tblF i s p v d d' n hrun hi hx hn hd
    simp at hi
  | cons tr rest ih =>
    intro tbl0 g' tblF i s p v d d' n hrun hi hx hn hd
    obtain ⟨s0, p0, o0⟩ := tr
    unfold postRun at hrun
    rcases hpt : postTriple ctx s0 o0 tbl0 with e | ⟨o1, tbl1⟩
    · rw [hpt] at hrun
      cases hrun
    · rw [hpt] at hrun
      simp only [] at hrun
      rcases hrr : postRun ctx rest tbl1 with e | ⟨g1, tblF1⟩
      · rw [hrr] at hrun
        cases hrun
      · rw [hrr] at hrun
        simp only [Except.ok.injEq, Prod.mk.injEq] at hrun
        obtain ⟨hg, htb⟩ := hrun
        cases i with
        | zero =>
          simp only [List.get?] at hi
          injection hi with hi
          have hs : s0 = s := congrArg (fun t => t.1) hi
          have hp : p0 = p := congrArg (fun t => t.2.1) hi
          have ho : o0 = Node.literal v (some d) := congrArg (fun t => t.2.2) hi
          subst hs
          subst hp
          rw [ho] at hpt
          rw [postTriple_lit_datatype hx hn hd] at hpt
          simp only [Except.ok.injEq, Prod.mk.injEq] at hpt
          obtain ⟨ho1, htbl1⟩ := hpt
          refine ⟨?_, ?_, ?_⟩
          · rw [← hg, ← ho1]
            simp
          · rw [← htb]
            rcases postRun_tbl_mono ctx rest tbl1 g1 tblF1 hrr s0 with hmono | ⟨m, hmono⟩
            · rw [hmono, ← htbl1, updTbl_self]
              rfl
            · rw [hmono]
              rfl
          · intro hlater
            rw [← htb]
            have hothers : ∀ t ∈ rest, ¬ t.1 = s0 := by
              intro t ht
              obtain ⟨j, hj⟩ := List.mem_iff_get?.mp ht
              exact hlater (j + 1) t (by omega) (by simpa using hj)
            rw [postRun_tbl_other ctx rest tbl1 g1 tblF1 hrr s0 hothers, ← htbl1, updTbl_self]
        | succ i' =>
          have hres := ih tbl1 g1 tblF1 i' s p v d d' n hrr (by simpa using hi) hx hn hd
          refine ⟨?_, ?_, ?_⟩
          · rw [← hg]
            simpa using hres.1
          · rw [← htb]
            exact hres.2.1
          · intro hlater
            rw [← htb]
            exact hres.2.2 (fun j t hj ht => hlater (j + 1) t (by omega) (by simpa using ht))

/-! ### Claims C3, C8 and C9: the postcondition -/

/-- C3 counterexample: when the suffix-stripped datatype is EMPTY (datatype
`_LINE_5`), the rebuilt literal's datatype is falsy, so the later blocks of
the loop treat it as datatype-less and can promote it to a `URIRef`; the
output object is then not the literal the claim promises.  Here the input
object is the literal `f:b` with datatype `_LINE_5` and the context maps `f`
to `u`: the output object is the reference `ub`. -/
theorem C3_counterexample :
    ((postcondition [(Node.uriref ['s'], Node.uriref ['p'],
          Node.literal ['f', ':', 'b'] (some (lineSep ++ ['5'])))] exCtxF).map
        (fun r => r.1.get? 0))
      = .ok (some (Node.uriref ['s'], Node.uriref ['p'], Node.uriref ['u', 'b']))
    ∧ ∀ w dt, Node.uriref ['u', 'b'] ≠ Node.literal w dt := by
  refine ⟨by decide, ?_⟩
  intro w dt h
  cases h

/-- C3 (amended): for every triple whose object is a literal whose datatype
bears a line-number suffix with a nonzero number and a NONEMPTY stripped
datatype, the output triple's object is the literal with the same textual
value and the suffix-stripped datatype; the table holds an entry for the
subject, and if no later triple has the same subject the entry is exactly
this triple's number (last-write-wins, one entry per subject since the table
is keyed by subject). -/
theorem C3_amended_thm (ctx : Ctx) (graph g' : List Triple) (tbl : Tbl)
    (i : Nat) (s p : Node) (v d d' : Str) (n : Int)
    (hpost : postcondition graph ctx = .ok (g', tbl))
    (hi : graph.get? i = some (s, p, Node.literal v (some d)))
    (hx : extract_line_number d = .ok (d', some n))
    (hn : ¬ n = 0) (hd : d' ≠ []) :
    g'.get? i = some (s, p, Node.literal v (some d'))
      ∧ (tbl s).isSome = true
      ∧ ((∀ j t, i < j → graph.get? j = some t → ¬ t.1 = s) → tbl s = some n) :=
  postRun_lit_datatype ctx graph (fun _ => none) g' tbl i s p v d d' n hpost hi hx hn hd

theorem C3_amended_thm_witness :
    ([(Node.uriref ['s'], Node.uriref ['p'], Node.literal ['w'] (some ['x']))] : List Triple).get? 0
      = some (Node.uriref ['s'], Node.uriref ['p'], Node.literal ['w'] (some ['x'])) :=
  (C3_amended_thm exCtxF
    [(Node.uriref ['s'], Node.uriref ['p'],
        Node.literal ['w'] (some (['x'] ++ lineSep ++ ['5'])))]
    [(Node.uriref ['s'], Node.uriref ['p'], Node.literal ['w'] (some ['x']))]
    (updTbl (fun _ => none) (Node.uriref ['s']) 5)
    0 (Node.uriref ['s']) (Node.uriref ['p']) ['w'] (['x'] ++ lineSep ++ ['5']) ['x'] 5
    rfl (by decide) (by decide) (by decide) (by decide)).1

/-- C8 counterexample: promotion concatenates the expansion and the part
after the colon, but the third block then strips a line-number suffix from
the resulting reference, so the output is NOT always the plain concatenation:
literal `f:b_LINE_2` (no datatype) with context `f -> u` yields the
reference `ub`, not `ub_LINE_2`. -/
theorem C8_counterexample :
    ((postcondition [(Node.uriref ['s'], Node.uriref ['p'],
          Node.literal (['f', ':', 'b'] ++ lineSep ++ ['2']) none)] exCtxF).map
        (fun r => r.1.get? 0))
      = .ok (some (Node.uriref ['s'], Node.uriref ['p'], Node.uriref ['u', 'b']))
    ∧ Node.uriref ['u', 'b'] ≠ Node.uriref (['u'] ++ (['b'] ++ lineSep ++ ['2'])) := by
  refine ⟨by decide, by decide⟩

/-- C8 (amended): for every triple whose object is a literal with no datatype
whose text splits on its first colon into a context key and a remainder, the
output object is the reference whose text is the context's expansion
concatenated with the remainder — provided that concatenation does not
contain the separator `_LINE_` (otherwise the subsequent reference
line-number-stripping block rewrites it further). -/
theorem C8_amended_thm (ctx : Ctx) (graph g' : List Triple) (tbl : Tbl)
    (i : Nat) (s p : Node) (v p0 p1 exp : Str)
    (hpost : postcondition graph ctx = .ok (g', tbl))
    (hi : graph.get? i = some (s, p, Node.literal v none))
    (hsplit : splitFirstColon v = (p0, some p1))
    (hctx : ctx p0 = some exp)
    (hns : ¬ lineSep <:+: (exp ++ p1)) :
    g'.get? i = some (s, p, Node.uriref (exp ++ p1)) := by
  obtain ⟨-, hget⟩ := postRun_spec ctx graph (fun _ => none) g' tbl hpost
  obtain ⟨o', tb, tb', hgo, hpo⟩ := hget i s p _ hi
  rw [postTriple_lit_promote hsplit hctx hns] at hpo
  simp only [Except.ok.injEq, Prod.mk.injEq] at hpo
  rw [hgo, ← hpo.1]

theorem C8_amended_thm_witness :
    ([(Node.uriref ['s'], Node.uriref ['p'], Node.uriref (['u'] ++ ['b']))] : List Triple).get? 0
      = some (Node.uriref ['s'], Node.uriref ['p'], Node.uriref (['u'] ++ ['b'])) :=
  C8_amended_thm exCtxF
    [(Node.uriref ['s'], Node.uriref ['p'], Node.literal ['f', ':', 'b'] none)]
    [(Node.uriref ['s'], Node.uriref ['p'], Node.uriref (['u'] ++ ['b']))]
    (fun _ => none) 0 (Node.uriref ['s']) (Node.uriref ['p']) ['f', ':', 'b'] ['f'] ['b'] ['u']
    rfl (by decide) (by decide) (by decide) (by decide)

/-- C9: every output triple has exactly the subject and predicate of the
input triple it was built from (only objects are ever replaced), and triples
whose object is a blank node are passed through completely unchanged. -/
theorem C9_frame (ctx : Ctx) (graph g' : List Triple) (tbl : Tbl)
    (hpost : postcondition graph ctx = .ok (g', tbl)) :
    g'.length = graph.length
      ∧ (∀ i s p o, graph.get? i = some (s, p, o) → ∃ o', g'.get? i = some (s, p, o'))
      ∧ (∀ i s p b, graph.get? i = some (s, p, Node.bnode b) →
          g'.get? i = some (s, p, Node.bnode b)) := by
  obtain ⟨hlen, hget⟩ := postRun_spec ctx graph (fun _ => none) g' tbl hpost
  refine ⟨hlen, ?_, ?_⟩
  · intro i s p o hi
    obtain ⟨o', tb, tb', hgo, -⟩ := hget i s p o hi
    exact ⟨o', hgo⟩
  · intro i s p b hi
    obtain ⟨o', tb, tb', hgo, hpo⟩ := hget i s p _ hi
    rw [postTriple_bnode] at hpo
    simp only [Except.ok.injEq, Prod.mk.injEq] at hpo
    rw [hgo, ← hpo.1]

theorem C9_frame_witness :
    ([(Node.uriref ['s'], Node.uriref ['p'], Node.bnode ['b'])] : List Triple).get? 0
      = some (Node.uriref ['s'], Node.uriref ['p'], Node.bnode ['b']) :=
  (C9_frame exCtxF
    [(Node.uriref ['s'], Node.uriref ['p'], Node.bnode ['b'])]
    [(Node.uriref ['s'], Node.uriref ['p'], Node.bnode ['b'])]
    (fun _ => none) rfl).2.2 0 (Node.uriref ['s']) (Node.uriref ['p']) ['b'] (by decide)
